import Mathlib

/-!
Shallow embedding of the `se-cli` shell core (parser/expander, builtins,
pipeline executor) and proofs of the specification claims.

Conventions of the embedding:
* Rust `String`/`&str` values are `List Char`; byte buffers (`Vec<u8>`,
  `&[u8]`) are `List Nat` with each element `< 256`.
* `std::collections::HashMap<String, String>` is an association list where
  `insert` prepends (shadowing) and lookup returns the most recent binding;
  this is observationally the map semantics the code relies on.
* Fallible Rust functions returning `Result<_, E>` become `Except E _`.
* External collaborators (the regex crate, clap argument parsing, the file
  system, the current directory, external processes) are oracles passed as
  explicit parameters; everything from `src/` itself is translated directly.
-/

namespace SeCli

/-- Quote characters, named to keep concrete inputs readable. -/
def squote : Char := Char.ofNat 39

/-- The double-quote character. -/
def dquote : Char := Char.ofNat 34

/-- `char::is_ascii_alphabetic`. -/
def isAsciiAlphabetic (c : Char) : Bool :=
  (97 ≤ c.toNat && c.toNat ≤ 122) || (65 ≤ c.toNat && c.toNat ≤ 90)

/-- `char::is_ascii_digit`. -/
def isAsciiDigit (c : Char) : Bool :=
  48 ≤ c.toNat && c.toNat ≤ 57

/-- `char::is_ascii_alphanumeric`. -/
def isAsciiAlphanumeric (c : Char) : Bool :=
  isAsciiAlphabetic c || isAsciiDigit c

/-- The whitespace test used by the scanners: `' ' | '\t'` (parser.rs). -/
def isWsChar (c : Char) : Bool :=
  c = ' ' || c = '\t'

/-- Environment map (`HashMap<String, String>`): association list, newest
binding first. -/
abbrev Env := List (List Char × List Char)

/-- `HashMap::get`: the most recent binding for `k`. -/
def envGet (env : Env) (k : List Char) : Option (List Char) :=
  (env.find? (fun p => p.1 = k)).map (fun p => p.2)

/-- `HashMap::insert`: prepend the new binding (shadows earlier ones). -/
def envInsert (env : Env) (k v : List Char) : Env :=
  (k, v) :: env

/-! ## Parser (src/src/shell/parser.rs) -/

/-- `ParseError` from parser.rs. -/
inductive ParseError where
  | unclosedQuote (q : Char)
  | emptyPipelineSegment
deriving DecidableEq, Repr

/-- `CommandSpec` from types.rs: command name plus arguments. -/
structure CommandSpec where
  name : List Char
  args : List (List Char)
deriving DecidableEq, Repr

/-- `Pipeline` from types.rs: ordered stages. -/
structure Pipeline where
  commands : List CommandSpec
deriving DecidableEq, Repr

/-- `ParsedLine` from parser.rs. -/
structure ParsedLine where
  assignments : List (List Char × List Char)
  pipeline : Option Pipeline
deriving DecidableEq, Repr

/-- Tokens produced by Pass B (`Token` in parser.rs). -/
inductive Token where
  | word (w : List Char)
  | pipe
deriving DecidableEq, Repr

/-- `str::split_once(sep)`: split at the first occurrence of `sep`. -/
def splitOnce (sep : Char) : List Char → Option (List Char × List Char)
  | [] => none
  | c :: rest =>
    if c = sep then some ([], rest)
    else (splitOnce sep rest).map (fun p => (c :: p.1, p.2))

/-- `parse_assignment` (parser.rs:111): parse `NAME=value` with
`NAME = [A-Za-z_][A-Za-z0-9_]*`; `None` otherwise. -/
def parse_assignment (token : List Char) : Option (List Char × List Char) :=
  match splitOnce '=' token with
  | none => none
  | some (name, value) =>
    match name with
    | [] => none
    | first :: restName =>
      if first = '_' || isAsciiAlphabetic first then
        if restName.all (fun c => c = '_' || isAsciiAlphanumeric c) then
          some (name, value)
        else none
      else none

/-- The continuation-character test of `try_read_var_name`:
`c == '_' || c.is_ascii_alphanumeric()`. -/
def isVarNameChar (c : Char) : Bool :=
  c = '_' || isAsciiAlphanumeric c

/-- `try_read_var_name` (parser.rs:380): peek at the upcoming characters; if
the first is `_` or an ASCII letter, consume the maximal run of
`[A-Za-z0-9_]` as the variable name (the first character satisfies the
continuation test as well, so a single `takeWhile` from the start consumes
exactly the same characters as the source's next-then-while loop).  Returns
the name; on success the caller's iterator stands after the consumed run,
i.e. at `s.dropWhile isVarNameChar`; on failure nothing is consumed. -/
def tryReadVarName (s : List Char) : Option (List Char) :=
  match s with
  | [] => none
  | first :: _ =>
    if first = '_' || isAsciiAlphabetic first then
      some (s.takeWhile isVarNameChar)
    else none

/-- The three scanner modes shared by Pass A and Pass B (`Mode` in
parser.rs). -/
inductive QMode where
  | normal
  | inSingle
  | inDouble
deriving DecidableEq, Repr

/-- Mutable local state of `expand_line` (Pass A), excluding the mode:
output string, working environment copy, assignment-prefix flag
(`in_assignment_prefix`), the quote-stripped current word buffer
(`current_assignment_word`), and `assignment_word_started`. -/
structure ExpandSt where
  out : List Char
  env : Env
  assignFlag : Bool
  curWord : List Char
  wordStarted : Bool
deriving DecidableEq, Repr

/-- `finish_assignment_word` (parser.rs:157): at a word boundary, when a word
was started, take the buffered word; if the assignment-prefix flag is still
set, either commit `NAME=value` to the working environment or clear the flag
permanently. -/
def finish_assignment_word (st : ExpandSt) : ExpandSt :=
  if !st.wordStarted then st
  else
    let word := st.curWord
    let st1 : ExpandSt := { st with curWord := [], wordStarted := false }
    if st1.assignFlag then
      match parse_assignment word with
      | some (k, v) => { st1 with env := envInsert st1.env k v }
      | none => { st1 with assignFlag := false }
    else st1

/-- The main scan loop of `expand_line` (parser.rs:176-277).  One call
consumes at least one character; the whitespace case additionally consumes
the run of following whitespace (the source's inner `peek` loop), pushing a
copy of the first whitespace character for each consumed one. -/
def expandGo : List Char → QMode → ExpandSt → Except ParseError ExpandSt
  | [], .normal, st => .ok (finish_assignment_word st)
  | [], .inSingle, _ => .error (.unclosedQuote squote)
  | [], .inDouble, _ => .error (.unclosedQuote dquote)
  | ch :: rest, .normal, st =>
    if isWsChar ch then
      let st1 := finish_assignment_word st
      let run := rest.takeWhile isWsChar
      expandGo (rest.dropWhile isWsChar) .normal
        { st1 with out := st1.out ++ List.replicate (run.length + 1) ch }
    else if ch = '|' then
      let st1 := finish_assignment_word st
      expandGo rest .normal
        { st1 with assignFlag := false, out := st1.out ++ ['|'] }
    else if ch = squote then
      expandGo rest .inSingle
        { st with out := st.out ++ [squote], wordStarted := true }
    else if ch = dquote then
      expandGo rest .inDouble
        { st with out := st.out ++ [dquote], wordStarted := true }
    else if ch = '$' then
      match tryReadVarName rest with
      | some name =>
        let val := (envGet st.env name).getD []
        expandGo (rest.dropWhile isVarNameChar) .normal
          { st with out := st.out ++ val, curWord := st.curWord ++ val,
                    wordStarted := true }
      | none =>
        expandGo rest .normal
          { st with out := st.out ++ ['$'], curWord := st.curWord ++ ['$'],
                    wordStarted := true }
    else
      expandGo rest .normal
        { st with out := st.out ++ [ch], curWord := st.curWord ++ [ch],
                  wordStarted := true }
  | ch :: rest, .inSingle, st =>
    if ch = squote then
      expandGo rest .normal { st with out := st.out ++ [squote] }
    else
      expandGo rest .inSingle
        { st with out := st.out ++ [ch], curWord := st.curWord ++ [ch],
                  wordStarted := true }
  | ch :: rest, .inDouble, st =>
    if ch = dquote then
      expandGo rest .normal { st with out := st.out ++ [dquote] }
    else if ch = '$' then
      match tryReadVarName rest with
      | some name =>
        let val := (envGet st.env name).getD []
        expandGo (rest.dropWhile isVarNameChar) .inDouble
          { st with out := st.out ++ val, curWord := st.curWord ++ val,
                    wordStarted := true }
      | none =>
        expandGo rest .inDouble
          { st with out := st.out ++ ['$'], curWord := st.curWord ++ ['$'],
                    wordStarted := true }
    else
      expandGo rest .inDouble
        { st with out := st.out ++ [ch], curWord := st.curWord ++ [ch],
                  wordStarted := true }
termination_by input _ _ => input.length
decreasing_by
  all_goals simp_all
  all_goals exact Nat.lt_succ_of_le (List.dropWhile_sublist _).length_le

/-- `expand_line` (parser.rs:137), instrumented to return the whole final
state (the source returns only `out`; `expand_line` below projects it). -/
def expandLineSt (input : List Char) (baseEnv : Env) :
    Except ParseError ExpandSt :=
  expandGo input .normal
    { out := [], env := baseEnv, assignFlag := true, curWord := [],
      wordStarted := false }

/-- `expand_line` (parser.rs:137): `$NAME` substitution with quote-aware
scanning; returns the expanded string. -/
def expand_line (input : List Char) (baseEnv : Env) :
    Except ParseError (List Char) :=
  (expandLineSt input baseEnv).map (fun st => st.out)

/-- Claim-modelled variant of the Pass-A scan loop, for the refinement
comparison of claim C1: it follows the claim's words in testing the
*pre-expansion* (but quote-stripped) word against the assignment grammar,
i.e. a `$NAME` reference contributes the literal characters `$NAME` to the
current assignment word buffer instead of the substituted value.  Everything
else is identical to `expandGo`. -/
def expandGoClaimPre : List Char → QMode → ExpandSt → Except ParseError ExpandSt
  | [], .normal, st => .ok (finish_assignment_word st)
  | [], .inSingle, _ => .error (.unclosedQuote squote)
  | [], .inDouble, _ => .error (.unclosedQuote dquote)
  | ch :: rest, .normal, st =>
    if isWsChar ch then
      let st1 := finish_assignment_word st
      let run := rest.takeWhile isWsChar
      expandGoClaimPre (rest.dropWhile isWsChar) .normal
        { st1 with out := st1.out ++ List.replicate (run.length + 1) ch }
    else if ch = '|' then
      let st1 := finish_assignment_word st
      expandGoClaimPre rest .normal
        { st1 with assignFlag := false, out := st1.out ++ ['|'] }
    else if ch = squote then
      expandGoClaimPre rest .inSingle
        { st with out := st.out ++ [squote], wordStarted := true }
    else if ch = dquote then
      expandGoClaimPre rest .inDouble
        { st with out := st.out ++ [dquote], wordStarted := true }
    else if ch = '$' then
      match tryReadVarName rest with
      | some name =>
        let val := (envGet st.env name).getD []
        expandGoClaimPre (rest.dropWhile isVarNameChar) .normal
          { st with out := st.out ++ val,
                    curWord := st.curWord ++ '$' :: name,
                    wordStarted := true }
      | none =>
        expandGoClaimPre rest .normal
          { st with out := st.out ++ ['$'], curWord := st.curWord ++ ['$'],
                    wordStarted := true }
    else
      expandGoClaimPre rest .normal
        { st with out := st.out ++ [ch], curWord := st.curWord ++ [ch],
                  wordStarted := true }
  | ch :: rest, .inSingle, st =>
    if ch = squote then
      expandGoClaimPre rest .normal { st with out := st.out ++ [squote] }
    else
      expandGoClaimPre rest .inSingle
        { st with out := st.out ++ [ch], curWord := st.curWord ++ [ch],
                  wordStarted := true }
  | ch :: rest, .inDouble, st =>
    if ch = dquote then
      expandGoClaimPre rest .normal { st with out := st.out ++ [dquote] }
    else if ch = '$' then
      match tryReadVarName rest with
      | some name =>
        let val := (envGet st.env name).getD []
        expandGoClaimPre (rest.dropWhile isVarNameChar) .inDouble
          { st with out := st.out ++ val,
                    curWord := st.curWord ++ '$' :: name,
                    wordStarted := true }
      | none =>
        expandGoClaimPre rest .inDouble
          { st with out := st.out ++ ['$'], curWord := st.curWord ++ ['$'],
                    wordStarted := true }
    else
      expandGoClaimPre rest .inDouble
        { st with out := st.out ++ [ch], curWord := st.curWord ++ [ch],
                  wordStarted := true }
termination_by input _ _ => input.length
decreasing_by
  all_goals simp_all
  all_goals exact Nat.lt_succ_of_le (List.dropWhile_sublist _).length_le

/-- The expansion result prescribed by claim C1's reading of Pass A
(pre-expansion assignment words). -/
def expandLineClaimPre (input : List Char) (baseEnv : Env) :
    Except ParseError (List Char) :=
  (expandGoClaimPre input .normal
    { out := [], env := baseEnv, assignFlag := true, curWord := [],
      wordStarted := false }).map (fun st => st.out)

/-- The Pass-B scan loop of `tokenize_with_pipes_and_quotes`
(parser.rs:283-358): quote removal and splitting into `Word`/`Pipe` tokens.
State: accumulated tokens, current token buffer, `token_started`. -/
def tokenizeGo : List Char → QMode → List Token → List Char → Bool →
    Except ParseError (List Token)
  | [], .normal, tokens, current, started =>
    .ok (if started then tokens ++ [Token.word current] else tokens)
  | [], .inSingle, _, _, _ => .error (.unclosedQuote squote)
  | [], .inDouble, _, _, _ => .error (.unclosedQuote dquote)
  | ch :: rest, .normal, tokens, current, started =>
    if isWsChar ch then
      let tokens1 := if started then tokens ++ [Token.word current] else tokens
      tokenizeGo (rest.dropWhile isWsChar) .normal tokens1 [] false
    else if ch = '|' then
      let tokens1 := if started then tokens ++ [Token.word current] else tokens
      tokenizeGo rest .normal (tokens1 ++ [Token.pipe]) [] false
    else if ch = squote then
      tokenizeGo rest .inSingle tokens current true
    else if ch = dquote then
      tokenizeGo rest .inDouble tokens current true
    else
      tokenizeGo rest .normal tokens (current ++ [ch]) true
  | ch :: rest, .inSingle, tokens, current, started =>
    if ch = squote then
      tokenizeGo rest .normal tokens current started
    else
      tokenizeGo rest .inSingle tokens (current ++ [ch]) true
  | ch :: rest, .inDouble, tokens, current, started =>
    if ch = dquote then
      tokenizeGo rest .normal tokens current started
    else
      tokenizeGo rest .inDouble tokens (current ++ [ch]) true
termination_by input _ _ _ _ => input.length
decreasing_by
  all_goals simp_all
  all_goals exact Nat.lt_succ_of_le (List.dropWhile_sublist _).length_le

/-- `tokenize_with_pipes_and_quotes` (parser.rs:283). -/
def tokenize_with_pipes_and_quotes (input : List Char) :
    Except ParseError (List Token) :=
  tokenizeGo input .normal [] [] false

/-- `split_assignments_prefix` (parser.rs:360): move the maximal leading run
of `NAME=value` word tokens into the assignments list; stop at the first
non-matching word or any pipe. -/
def split_assignments : List Token →
    (List (List Char × List Char) × List Token)
  | [] => ([], [])
  | Token.word w :: rest =>
    match parse_assignment w with
    | some (k, v) =>
      let (a, t) := split_assignments rest
      ((k, v) :: a, t)
    | none => ([], Token.word w :: rest)
  | Token.pipe :: rest => ([], Token.pipe :: rest)

/-- The token loop of `parse_pipeline` (parser.rs:79): split on `Pipe`
tokens; an empty segment is an error; each segment's first word is the
stage name, the rest its arguments. -/
def parsePipelineLoop : List Token → List (List Char) → List CommandSpec →
    Except ParseError (List CommandSpec)
  | [], current, commands =>
    match current with
    | [] => .error .emptyPipelineSegment
    | name :: args => .ok (commands ++ [{ name := name, args := args }])
  | Token.word w :: rest, current, commands =>
    parsePipelineLoop rest (current ++ [w]) commands
  | Token.pipe :: rest, current, commands =>
    match current with
    | [] => .error .emptyPipelineSegment
    | name :: args =>
      parsePipelineLoop rest [] (commands ++ [{ name := name, args := args }])

/-- `parse_pipeline` (parser.rs:79). -/
def parse_pipeline (tokens : List Token) : Except ParseError Pipeline :=
  (parsePipelineLoop tokens [] []).map Pipeline.mk

/-- `parse_line` (parser.rs:47): expand, tokenize, extract the assignment
run, then parse the pipeline (absent when no tokens remain). -/
def parse_line (line : List Char) (baseEnv : Env) :
    Except ParseError ParsedLine :=
  match expand_line line baseEnv with
  | .error e => .error e
  | .ok expanded =>
    match tokenize_with_pipes_and_quotes expanded with
    | .error e => .error e
    | .ok tokens =>
      let (assignments, tokens) := split_assignments tokens
      if tokens.isEmpty then
        .ok { assignments := assignments, pipeline := none }
      else
        (parse_pipeline tokens).map
          (fun p => { assignments := assignments, pipeline := some p })

/-! ## Bytes, UTF-8 and text helpers (library semantics used by builtins.rs) -/

/-- Byte buffers (`Vec<u8>` / `&[u8]`). -/
abbrev Bytes := List Nat

/-- U+FFFD REPLACEMENT CHARACTER. -/
def replChar : Char := Char.ofNat 0xFFFD

/-- UTF-8 continuation byte test (`0x80..=0xBF`). -/
def isContByte (c : Nat) : Bool :=
  0x80 ≤ c && c ≤ 0xBF

/-- Valid range test for the second byte of a multi-byte UTF-8 sequence with
lead byte `b` (the constrained ranges of RFC 3629). -/
def validSecondByte (b c : Nat) : Bool :=
  if b = 0xE0 then 0xA0 ≤ c && c ≤ 0xBF
  else if b = 0xED then 0x80 ≤ c && c ≤ 0x9F
  else if b = 0xF0 then 0x90 ≤ c && c ≤ 0xBF
  else if b = 0xF4 then 0x80 ≤ c && c ≤ 0x8F
  else isContByte c

/-- `String::from_utf8_lossy`: decode UTF-8, replacing each maximal subpart
of an ill-formed subsequence with one U+FFFD (the substitution the Rust
standard library performs). -/
def utf8Lossy : Bytes → List Char
  | [] => []
  | b :: rest =>
    if b < 0x80 then Char.ofNat b :: utf8Lossy rest
    else if 0xC2 ≤ b && b ≤ 0xDF then
      match rest with
      | [] => [replChar]
      | c1 :: rest1 =>
        if isContByte c1 then
          Char.ofNat ((b - 0xC0) * 0x40 + (c1 - 0x80)) :: utf8Lossy rest1
        else replChar :: utf8Lossy (c1 :: rest1)
    else if 0xE0 ≤ b && b ≤ 0xEF then
      match rest with
      | [] => [replChar]
      | c1 :: rest1 =>
        if validSecondByte b c1 then
          match rest1 with
          | [] => [replChar]
          | c2 :: rest2 =>
            if isContByte c2 then
              Char.ofNat ((b - 0xE0) * 0x1000 + (c1 - 0x80) * 0x40 + (c2 - 0x80))
                :: utf8Lossy rest2
            else replChar :: utf8Lossy (c2 :: rest2)
        else replChar :: utf8Lossy (c1 :: rest1)
    else if 0xF0 ≤ b && b ≤ 0xF4 then
      match rest with
      | [] => [replChar]
      | c1 :: rest1 =>
        if validSecondByte b c1 then
          match rest1 with
          | [] => [replChar]
          | c2 :: rest2 =>
            if isContByte c2 then
              match rest2 with
              | [] => [replChar]
              | c3 :: rest3 =>
                if isContByte c3 then
                  Char.ofNat ((b - 0xF0) * 0x40000 + (c1 - 0x80) * 0x1000 +
                      (c2 - 0x80) * 0x40 + (c3 - 0x80)) :: utf8Lossy rest3
                else replChar :: utf8Lossy (c3 :: rest3)
            else replChar :: utf8Lossy (c2 :: rest2)
        else replChar :: utf8Lossy (c1 :: rest1)
    else replChar :: utf8Lossy rest

/-- UTF-8 encoding of one character. -/
def utf8EncodeChar (c : Char) : Bytes :=
  let n := c.toNat
  if n < 0x80 then [n]
  else if n < 0x800 then [0xC0 + n / 0x40, 0x80 + n % 0x40]
  else if n < 0x10000 then
    [0xE0 + n / 0x1000, 0x80 + n / 0x40 % 0x40, 0x80 + n % 0x40]
  else
    [0xF0 + n / 0x40000, 0x80 + n / 0x1000 % 0x40, 0x80 + n / 0x40 % 0x40,
     0x80 + n % 0x40]

/-- UTF-8 encoding of a string (what writing a `str` to a byte sink emits). -/
def enc : List Char → Bytes
  | [] => []
  | c :: rest => utf8EncodeChar c ++ enc rest

/-- Strip one trailing carriage return (the `\r` removal of `str::lines`). -/
def rstripCr (l : List Char) : List Char :=
  if l.getLast? = some '\r' then l.dropLast else l

/-- Worker for `rustLines`, carrying the current (unterminated) line. -/
def rustLinesGo : List Char → List Char → List (List Char)
  | [], cur => if cur.isEmpty then [] else [cur]
  | '\n' :: rest, cur => rstripCr cur :: rustLinesGo rest []
  | c :: rest, cur => rustLinesGo rest (cur ++ [c])

/-- `str::lines`: split on LF, dropping one `\r` before each LF; a final
line without terminator is yielded as-is, and a trailing empty tail is not
yielded.  A lone CR does not terminate a line. -/
def rustLines (s : List Char) : List (List Char) :=
  rustLinesGo s []

/-- `char::is_whitespace`: the Unicode `White_Space` property (the full,
finite list of `White_Space` code points). -/
def isUnicodeWs (c : Char) : Bool :=
  let n := c.toNat
  (0x9 ≤ n && n ≤ 0xD) || n = 0x20 || n = 0x85 || n = 0xA0 || n = 0x1680 ||
  (0x2000 ≤ n && n ≤ 0x200A) || n = 0x2028 || n = 0x2029 || n = 0x202F ||
  n = 0x205F || n = 0x3000

/-- Worker for `splitWs`, carrying the current word. -/
def splitWsGo : List Char → List Char → List (List Char)
  | [], cur => if cur.isEmpty then [] else [cur]
  | c :: rest, cur =>
    if isUnicodeWs c then
      if cur.isEmpty then splitWsGo rest []
      else cur :: splitWsGo rest []
    else splitWsGo rest (cur ++ [c])

/-- `str::split_whitespace`: the maximal non-whitespace runs, in order. -/
def splitWs (s : List Char) : List (List Char) :=
  splitWsGo s []

/-! ## Builtins (src/src/shell/builtins.rs) -/

/-- `count_wc` (builtins.rs:186): `(lines, words, bytes)` of a byte
buffer. -/
def count_wc (bytes : Bytes) : Nat × Nat × Nat :=
  let text := utf8Lossy bytes
  ((rustLines text).length, (splitWs text).length, bytes.length)

/-- `ShellControl` from types.rs. -/
inductive ShellControl where
  | Continue (code : Int)
  | Exit (code : Int)
deriving DecidableEq, Repr

/-- `ShellError` from types.rs (error payloads as plain strings). -/
inductive ShellError where
  | parse (e : ParseError)
  | io (msg : List Char)
  | process (msg : List Char)
deriving DecidableEq, Repr

/-- `RunResult` from types.rs. -/
structure RunResult where
  exit_code : Int
  stdout : Bytes
  stderr : Bytes
deriving DecidableEq, Repr

/-- Split a string at the first occurrence of the substring `pat`
(`str::split_once` with a string pattern). -/
def subSplit (pat : List Char) : List Char → Option (List Char × List Char)
  | [] => none
  | c :: rest =>
    if (c :: rest).take pat.length = pat then
      some ([], (c :: rest).drop pat.length)
    else (subSplit pat rest).map (fun p => (c :: p.1, p.2))

/-- `io_error_message` (builtins.rs:9): drop the ` (os error N)` suffix from
an I/O error display string. -/
def io_error_message (s : List Char) : List Char :=
  match subSplit " (os error".toList s with
  | some p => p.1
  | none => s

/-- The file system as seen through `std::fs::read`: per path, either the
file's bytes or the display string of the I/O error. -/
abbrev Fs := List Char → Except (List Char) Bytes

/-- `run_echo` (builtins.rs:79): arguments joined by single spaces plus a
newline; exit 0. -/
def run_echo (args : List (List Char)) :
    Except ShellError (ShellControl × Bytes × Bytes) :=
  .ok (.Continue 0, enc ((List.intercalate [' '] args) ++ ['\n']), [])

/-- `run_pwd` (builtins.rs:88): the current directory (an oracle here) plus
a newline; a retrieval failure surfaces as `ShellError::Io`. -/
def run_pwd (cwd : Except (List Char) (List Char)) :
    Except ShellError (ShellControl × Bytes × Bytes) :=
  match cwd with
  | .error e => .error (.io e)
  | .ok dir => .ok (.Continue 0, enc (dir ++ ['\n']), [])

/-- Value of a non-empty all-digit string, `none` otherwise. -/
def digitsVal (s : List Char) : Option Nat :=
  if !s.isEmpty && s.all isAsciiDigit then
    some (s.foldl (fun a c => a * 10 + (c.toNat - 48)) 0)
  else none

/-- `str::parse::<i32>`: optional sign, decimal digits, `i32` range. -/
def parseI32 (s : List Char) : Option Int :=
  let signed : List Char → Bool → Option Int := fun ds neg =>
    match digitsVal ds with
    | none => none
    | some v =>
      let i : Int := if neg then -(v : Int) else (v : Int)
      if -(2 ^ 31) ≤ i && i ≤ 2 ^ 31 - 1 then some i else none
  match s with
  | '+' :: rest => signed rest false
  | '-' :: rest => signed rest true
  | _ => signed s false

/-- `run_exit` (builtins.rs:97): `Exit(code)` with the first argument parsed
as `i32`; missing or unparseable argument yields `Exit(0)`. -/
def run_exit (args : List (List Char)) :
    Except ShellError (ShellControl × Bytes × Bytes) :=
  .ok (.Exit ((args.head?.bind parseI32).getD 0), [], [])

/-- The per-file loop of `run_cat` (builtins.rs:127-138), threading the exit
code and both output buffers. -/
def catLoop (fs : Fs) : List (List Char) → Int → Bytes → Bytes →
    Int × Bytes × Bytes
  | [], code, out, err => (code, out, err)
  | p :: rest, code, out, err =>
    match fs p with
    | .ok bytes => catLoop fs rest code (out ++ bytes) err
    | .error e =>
      catLoop fs rest 1 out
        (err ++ enc ("cat: ".toList ++ p ++ ": ".toList ++
          io_error_message e ++ ['\n']))

/-- `run_cat` (builtins.rs:111). -/
def run_cat (args : List (List Char)) (stdin : Option Bytes) (fs : Fs) :
    Except ShellError (ShellControl × Bytes × Bytes) :=
  if args.isEmpty then
    match stdin with
    | some input => .ok (.Continue 0, input, [])
    | none => .ok (.Continue 2, [], enc "cat: missing file operand\n".toList)
  else
    let (code, out, err) := catLoop fs args 0 [] []
    .ok (.Continue code, out, err)

/-- Render `<lines> <words> <bytes>\n` for `run_wc`. -/
def wcFormat (l w b : Nat) : Bytes :=
  enc (Nat.toDigits 10 l ++ ' ' :: Nat.toDigits 10 w ++ ' ' ::
    Nat.toDigits 10 b ++ ['\n'])

/-- `run_wc` (builtins.rs:150).  The source checks `args.is_empty()` first
and `args.len() != 1` second; the three-way match below covers exactly those
branches. -/
def run_wc (args : List (List Char)) (stdin : Option Bytes) (fs : Fs) :
    Except ShellError (ShellControl × Bytes × Bytes) :=
  match args with
  | [] =>
    match stdin with
    | some input =>
      let c := count_wc input
      .ok (.Continue 0, wcFormat c.1 c.2.1 c.2.2, [])
    | none => .ok (.Continue 2, [], enc "wc: missing file operand\n".toList)
  | [path] =>
    match fs path with
    | .error e =>
      .ok (.Continue 1, [],
        enc ("wc: ".toList ++ path ++ ": ".toList ++ io_error_message e ++
          ['\n']))
    | .ok bytes =>
      let c := count_wc bytes
      .ok (.Continue 0, wcFormat c.1 c.2.1 c.2.2, [])
  | _ =>
    .ok (.Continue 2, [], enc "wc: expected exactly one file path\n".toList)

/-- A compiled regex (the external `regex` crate), abstracted by its
observable behavior: `isMatch` is `Regex::is_match` on a line, and
`findIter` is the match list `Regex::find_iter` yields on a line, each match
as a `(start, end)` pair of character positions (the crate reports byte
offsets; on the decoded text these are in bijection with character
positions, which is the abstraction used here). -/
structure Regex where
  isMatch : List Char → Bool
  findIter : List Char → List (Nat × Nat)

/-- `is_word_constituent` (builtins.rs:345): Unicode alphanumeric or `_`.
`char::is_alphanumeric` (the full Unicode tables) is the oracle `alnum`. -/
def is_word_constituent (alnum : Char → Bool) (c : Char) : Bool :=
  alnum c || c = '_'

/-- `line_has_whole_word_match` (builtins.rs:349): some reported match is
non-zero-width and is not flanked by word-constituent characters.
`line[..start].chars().last()` is the last character of the prefix before
the match and `line[end..].chars().next()` the first after it. -/
def line_has_whole_word_match (alnum : Char → Bool) (re : Regex)
    (line : List Char) : Bool :=
  (re.findIter line).any fun m =>
    if m.1 = m.2 then false
    else
      let before := (line.take m.1).getLast?
      let after := (line.drop m.2).head?
      let okBefore :=
        match before with
        | none => true
        | some c => !(is_word_constituent alnum c)
      let okAfter :=
        match after with
        | none => true
        | some c => !(is_word_constituent alnum c)
      okBefore && okAfter

/-- The per-line loop of `grep_bytes_into_output` (builtins.rs:309-333):
given the per-line match test, the trailing-context width and the running
`(idx, print_until, found)` state, return the final `found` flag and the
emitted `(index, line)` pairs in emission order. -/
def grepScan (isM : List Char → Bool) (after : Nat) :
    List (List Char) → Nat → Int → Bool → Bool × List (Nat × List Char)
  | [], _, _, found => (found, [])
  | line :: rest, idx, pu, found =>
    let m := isM line
    let found1 := found || m
    let pu1 :=
      if m then
        if ((idx + after : Nat) : Int) > pu then ((idx + after : Nat) : Int)
        else pu
      else pu
    let r := grepScan isM after rest (idx + 1) pu1 found1
    (r.1, (if (idx : Int) ≤ pu1 then [(idx, line)] else []) ++ r.2)

/-- How one emitted line is rendered: `<path>:<line>\n` when a file prefix
is present, `<line>\n` otherwise. -/
def renderGrepLine (filePre : Option (List Char)) (line : List Char) :
    List Char :=
  match filePre with
  | some p => p ++ ':' :: line ++ ['\n']
  | none => line ++ ['\n']

/-- `grep_bytes_into_output` (builtins.rs:298): lossy-decode, split into
lines, scan with the `-A` cursor, and render the emitted lines; returns the
`found` flag and the bytes written to stdout. -/
def grep_bytes_into_output (alnum : Char → Bool) (re : Regex) (word : Bool)
    (after : Nat) (filePre : Option (List Char)) (bytes : Bytes) :
    Bool × Bytes :=
  let lines := rustLines (utf8Lossy bytes)
  let isM := fun line =>
    if word then line_has_whole_word_match alnum re line else re.isMatch line
  let r := grepScan isM after lines 0 (-1) false
  (r.1, (r.2.map (fun p => enc (renderGrepLine filePre p.2))).foldr
    (fun a b => a ++ b) [])

/-- The parsed `GrepCli` record (the clap-derived struct). -/
structure GrepCli where
  word : Bool
  ignoreCase : Bool
  after : Nat
  pattern : List Char
  files : List (List Char)

/-- The per-file loop of `run_grep` (builtins.rs:265-285), threading
`found_any`, `had_error` and the output buffers. -/
def grepFilesLoop (alnum : Char → Bool) (re : Regex) (word : Bool)
    (after : Nat) (withPre : Bool) (fs : Fs) :
    List (List Char) → Bool → Bool → Bytes → Bytes →
    Bool × Bool × Bytes × Bytes
  | [], foundAny, hadError, out, err => (foundAny, hadError, out, err)
  | p :: rest, foundAny, hadError, out, err =>
    match fs p with
    | .ok bytes =>
      let r := grep_bytes_into_output alnum re word after
        (if withPre then some p else none) bytes
      grepFilesLoop alnum re word after withPre fs rest (foundAny || r.1)
        hadError (out ++ r.2) err
    | .error e =>
      grepFilesLoop alnum re word after withPre fs rest foundAny true out
        (err ++ enc ("grep: ".toList ++ p ++ ": ".toList ++
          io_error_message e ++ ['\n']))

/-- `run_grep` after CLI and regex compilation succeeded (builtins.rs:
252-295): search stdin or the listed files and compute the exit code
`2` on error, else `0` on any match, else `1`. -/
def runGrepParsed (alnum : Char → Bool) (re : Regex) (cli : GrepCli)
    (stdin : Option Bytes) (fs : Fs) :
    Except ShellError (ShellControl × Bytes × Bytes) :=
  if cli.files.isEmpty then
    match stdin with
    | none =>
      .ok (.Continue 2, [], enc "grep: missing file operand\n".toList)
    | some input =>
      let r := grep_bytes_into_output alnum re cli.word cli.after none input
      .ok (.Continue (if r.1 then 0 else 1), r.2, [])
  else
    let r := grepFilesLoop alnum re cli.word cli.after
      (cli.files.length > 1) fs cli.files false false [] []
    .ok (.Continue (if r.2.1 then 2 else if r.1 then 0 else 1), r.2.2.1,
      r.2.2.2)

/-- `build_regex` (builtins.rs:338): compilation through the regex-crate
oracle, errors prefixed with `invalid regex: `. -/
def build_regex (regexBuild : List Char → Bool → Except (List Char) Regex)
    (pattern : List Char) (ignoreCase : Bool) :
    Except (List Char) Regex :=
  match regexBuild pattern ignoreCase with
  | .ok r => .ok r
  | .error e => .error ("invalid regex: ".toList ++ e)

/-- The external collaborators of the shell, as oracles: the
`char::is_alphanumeric` table, the current directory, clap's `GrepCli`
argument parsing, the regex builder, the file system, and the external
process executor. -/
structure Oracles where
  alnum : Char → Bool
  cwd : Except (List Char) (List Char)
  cliParse : List (List Char) → Except (List Char) GrepCli
  regexBuild : List Char → Bool → Except (List Char) Regex
  fs : Fs
  ext : List Char → List (List Char) → Env → Option Bytes →
    Except ShellError RunResult

/-- `run_grep` (builtins.rs:227): clap parsing, regex compilation, then the
search; argument or regex failures report `grep: <message>` and exit 2. -/
def run_grep (O : Oracles) (args : List (List Char)) (stdin : Option Bytes) :
    Except ShellError (ShellControl × Bytes × Bytes) :=
  match O.cliParse args with
  | .error e => .ok (.Continue 2, [], enc ("grep: ".toList ++ e ++ ['\n']))
  | .ok cli =>
    match build_regex O.regexBuild cli.pattern cli.ignoreCase with
    | .error msg =>
      .ok (.Continue 2, [], enc ("grep: ".toList ++ msg ++ ['\n']))
    | .ok re => runGrepParsed O.alnum re cli stdin O.fs

/-- `Builtin` (builtins.rs:21). -/
inductive Builtin where
  | cat
  | echo
  | grep
  | wc
  | pwd
  | exit
deriving DecidableEq, Repr

/-- `Builtin::from_name` (builtins.rs:32). -/
def Builtin.from_name (name : List Char) : Option Builtin :=
  if name = "cat".toList then some .cat
  else if name = "echo".toList then some .echo
  else if name = "grep".toList then some .grep
  else if name = "wc".toList then some .wc
  else if name = "pwd".toList then some .pwd
  else if name = "exit".toList then some .exit
  else none

/-- `run_builtin_with_input` (builtins.rs:62): dispatch to the builtin with
optional stdin bytes; result is `(control, stdout bytes, stderr bytes)`. -/
def run_builtin_with_input (O : Oracles) (b : Builtin)
    (args : List (List Char)) (stdin : Option Bytes) :
    Except ShellError (ShellControl × Bytes × Bytes) :=
  match b with
  | .echo => run_echo args
  | .pwd => run_pwd O.cwd
  | .exit => run_exit args
  | .cat => run_cat args stdin O.fs
  | .grep => run_grep O args stdin
  | .wc => run_wc args stdin O.fs

/-- `run_builtin` (builtins.rs:50): no stdin. -/
def run_builtin (O : Oracles) (b : Builtin) (args : List (List Char)) :
    Except ShellError (ShellControl × Bytes × Bytes) :=
  run_builtin_with_input O b args none

/-! ## Pipeline executor (src/src/shell/mod.rs) -/

/-- `run_single_command` (mod.rs:308): builtin lookup first, otherwise the
external executor; an external result is written out and wrapped in
`Continue`. -/
def run_single_command (O : Oracles) (env : Env) (c : CommandSpec) :
    Except ShellError (ShellControl × Bytes × Bytes) :=
  match Builtin.from_name c.name with
  | some b => run_builtin O b c.args
  | none =>
    match O.ext c.name c.args env none with
    | .error e => .error e
    | .ok r => .ok (.Continue r.exit_code, r.stdout, r.stderr)

/-- The body of one pipeline worker (mod.rs:189-279): a builtin stage drains
its stdin-pipe, runs against in-memory buffers, pushes its stdout into the
stage's stdout pipe, and reports `(exit code, stderr)`; an external stage is
the executor oracle.  Result: `(exit code, stdout fed to the next stage,
captured stderr)`. -/
def runStage (O : Oracles) (env : Env) (cmd : CommandSpec)
    (input : Option Bytes) : Except ShellError (Int × Bytes × Bytes) :=
  match Builtin.from_name cmd.name with
  | some b =>
    match run_builtin_with_input O b cmd.args input with
    | .error e => .error e
    | .ok (control, out, err) =>
      let exitCode :=
        match control with
        | .Continue c => c
        | .Exit c => c
      .ok (exitCode, out, err)
  | none =>
    match O.ext cmd.name cmd.args env input with
    | .error e => .error e
    | .ok r => .ok (r.exit_code, r.stdout, r.stderr)

/-- The dataflow of the OS-pipe plumbing (mod.rs:158-186, 236-243): stage
`i > 0` reads the stdout of stage `i-1`; stage `0` has no input.  Returns
the per-stage `(exit code, stderr)` list in command order together with the
last stage's stdout (the parent-facing pipe). -/
def runStagesChain (O : Oracles) (env : Env) :
    List CommandSpec → Option Bytes →
    Except ShellError (List (Int × Bytes) × Bytes)
  | [], input => .ok ([], input.getD [])
  | cmd :: rest, input =>
    match runStage O env cmd input with
    | .error e => .error e
    | .ok (code, out, err) =>
      match runStagesChain O env rest (some out) with
      | .error e => .error e
      | .ok (rs, fin) => .ok ((code, err) :: rs, fin)

/-- One write to the interpreter's streams. -/
inductive WriteEvent where
  | toStderr (bytes : Bytes)
  | toStdout (bytes : Bytes)
deriving DecidableEq, Repr

/-- The bytes a sequence of write events delivers to the interpreter
stderr. -/
def eventsErr : List WriteEvent → Bytes
  | [] => []
  | .toStderr b :: rest => b ++ eventsErr rest
  | .toStdout _ :: rest => eventsErr rest

/-- The bytes a sequence of write events delivers to the interpreter
stdout. -/
def eventsOut : List WriteEvent → Bytes
  | [] => []
  | .toStderr _ :: rest => eventsOut rest
  | .toStdout b :: rest => b ++ eventsOut rest

/-- Joining one handle per listed stage index: retrieve each stage's result
from the completion list.  `none` models a join that would block forever
because a stage never completes. -/
def joinLoop (completions : List (Nat × (Int × Bytes))) :
    List Nat → Option (List (Int × Bytes))
  | [] => some []
  | i :: rest =>
    match (completions.find? (fun q => q.1 = i)).map (fun q => q.2) with
    | none => none
    | some r => (joinLoop completions rest).map (fun rs => r :: rs)

/-- The join loop of mod.rs:289-294, made explicit about completion order:
`completions` lists `(stage index, stage result)` pairs in the order the
workers finished; the main thread joins handles `0, 1, …, n-1` in that
order, each join retrieving that stage's result no matter when it
completed. -/
def joinInOrder (completions : List (Nat × (Int × Bytes))) (n : Nat) :
    Option (List (Int × Bytes)) :=
  joinLoop completions (List.range n)

/-- `run_pipeline_with_os_pipes` (mod.rs:147): run all stages, then write
the non-empty stage stderr buffers in command order followed by the
pipeline stdout, and return `Continue` with the last stage's exit code. -/
def run_pipeline_with_os_pipes (O : Oracles) (env : Env) (p : Pipeline) :
    Except ShellError (ShellControl × List WriteEvent) :=
  match runStagesChain O env p.commands none with
  | .error e => .error e
  | .ok (results, finalStdout) =>
    let errWrites := (results.filter (fun r => !r.2.isEmpty)).map
      (fun r => WriteEvent.toStderr r.2)
    let lastExit := ((results.getLast?).map (fun r => r.1)).getD 0
    .ok (.Continue lastExit, errWrites ++ [WriteEvent.toStdout finalStdout])

/-- `run_pipeline_with_os_pipes` with the workers' completion order `σ` made
explicit: the stage bodies are unchanged, the workers finish in the order
`σ`, and the main thread joins the handles in command order, each join
retrieving that stage's result. -/
def runPipelineScheduled (O : Oracles) (env : Env) (p : Pipeline)
    (σ : List Nat) : Except ShellError (ShellControl × List WriteEvent) :=
  match runStagesChain O env p.commands none with
  | .error e => .error e
  | .ok (results, finalStdout) =>
    match joinInOrder (σ.filterMap (fun i => (results[i]?).map (fun r => (i, r))))
        results.length with
    | none => .error (.process "pipeline stage never completed".toList)
    | some ordered =>
      let errWrites := (ordered.filter (fun r => !r.2.isEmpty)).map
        (fun r => WriteEvent.toStderr r.2)
      let lastExit := ((ordered.getLast?).map (fun r => r.1)).getD 0
      .ok (.Continue lastExit, errWrites ++ [WriteEvent.toStdout finalStdout])

/-- `run_pipeline` (mod.rs:115): a single stage delegates to
`run_single_command`; a longer pipeline containing a stage named `exit` is
rejected with `Continue(2)`; otherwise the OS-pipe path runs (its stderr
writes precede its stdout write; the triple flattens the event list). -/
def run_pipeline (O : Oracles) (env : Env) (p : Pipeline) :
    Except ShellError (ShellControl × Bytes × Bytes) :=
  match p.commands with
  | [c] => run_single_command O env c
  | _ =>
    if p.commands.any (fun c => c.name = "exit".toList) then
      .ok (.Continue 2, [], enc "exit: cannot be used in pipeline\n".toList)
    else
      match run_pipeline_with_os_pipes O env p with
      | .error e => .error e
      | .ok (ctrl, evs) => .ok (ctrl, eventsOut evs, eventsErr evs)

/-! ## Claim-side (specification) definitions

These definitions follow the wording of spec.md / CLAIMS.json rather than
the source; the theorems below compare them with the source embeddings. -/

/-- From claim C2's words: split into lines on any of CR, LF, or CRLF
terminators, excluding a trailing empty tail.  `cur` is the line being
accumulated. -/
def linesAnyCrGo : List Char → List Char → List (List Char)
  | [], cur => if cur.isEmpty then [] else [cur]
  | '\r' :: '\n' :: rest, cur => cur :: linesAnyCrGo rest []
  | '\r' :: rest, cur => cur :: linesAnyCrGo rest []
  | '\n' :: rest, cur => cur :: linesAnyCrGo rest []
  | c :: rest, cur => linesAnyCrGo rest (cur ++ [c])

/-- Lines split on CR, LF, or CRLF, excluding a trailing empty tail (the
line-count rule claim C2 states). -/
def linesAnyCr (s : List Char) : List (List Char) :=
  linesAnyCrGo s []

/-- Lines split on LF or CRLF only — a CR not followed by LF is an ordinary
character (the amended C2 line-count rule).  `cur` is the line being
accumulated. -/
def linesLfCrlfGo : List Char → List Char → List (List Char)
  | [], cur => if cur.isEmpty then [] else [cur]
  | '\r' :: '\n' :: rest, cur => cur :: linesLfCrlfGo rest []
  | '\n' :: rest, cur => cur :: linesLfCrlfGo rest []
  | c :: rest, cur => linesLfCrlfGo rest (cur ++ [c])

/-- Lines split on LF or CRLF terminators, excluding a trailing empty
tail. -/
def linesLfCrlf (s : List Char) : List (List Char) :=
  linesLfCrlfGo s []

/-- From claim C2's words: the number of maximal non-whitespace runs.
`prevWs` records whether the previous position was whitespace (or the start
of the text); a run is counted at each non-whitespace character whose
predecessor is whitespace or absent. -/
def runCountGo : List Char → Bool → Nat
  | [], _ => 0
  | c :: rest, prevWs =>
    if isUnicodeWs c then runCountGo rest true
    else (if prevWs then 1 else 0) + runCountGo rest false

/-- The number of maximal non-whitespace runs of a text. -/
def runCount (s : List Char) : Nat :=
  runCountGo s true

/-- The counts claim C2 prescribes for a byte buffer: raw byte length;
lines split on any of CR, LF, or CRLF; maximal non-whitespace runs of the
lossily decoded text. -/
def countWcClaim (bytes : Bytes) : Nat × Nat × Nat :=
  let text := utf8Lossy bytes
  ((linesAnyCr text).length, runCount text, bytes.length)

/-- From claim C5's words: the `print_until` cursor in force at line `k`
(counting from the state `(idx, pu)`): it starts at −1 and is updated to
`max(print_until, idx + N)` at each matching line `idx`, including line `k`
itself. -/
def printUntilClaim (isM : List Char → Bool) (n : Nat) :
    List (List Char) → Nat → Int → Nat → Int
  | [], _, pu, _ => pu
  | line :: rest, idx, pu, k =>
    let pu1 := if isM line then max pu ((idx + n : Nat) : Int) else pu
    match k with
    | 0 => pu1
    | k + 1 => printUntilClaim isM n rest (idx + 1) pu1 k

/-- `joinLoop` generalized over the per-index lookup, for the
order-independence proofs about `joinInOrder`. -/
def joinLoopG (g : Nat → Option (Int × Bytes)) :
    List Nat → Option (List (Int × Bytes))
  | [] => some []
  | i :: rest =>
    match g i with
    | none => none
    | some r => (joinLoopG g rest).map (fun rs => r :: rs)

/-! ## Concrete data used by witnesses and counterexamples -/

/-- The bytes of `"hi\n"`. -/
def wBytes : Bytes := [104, 105, 10]

/-- A tiny concrete file system: one readable file `f` holding `"hi\n"`. -/
def wFs : Fs := fun q =>
  if q = String.toList "f" then .ok wBytes
  else .error (String.toList "boom (os error 2)")

/-- A concrete regex stand-in: matches exactly the line `hi`; reports one
find-iter match `(2, 5)` on the line `x foo`. -/
def wRegex : Regex :=
  { isMatch := fun l => l = String.toList "hi"
    findIter := fun l => if l = String.toList "x foo" then [(2, 5)] else [] }

/-- A concrete alphanumeric table for witnesses (ASCII fragment of the
Unicode table). -/
def wAlnum : Char → Bool := fun c => isAsciiAlphanumeric c

/-- Concrete oracles for witnesses. -/
def wOracles : Oracles :=
  { alnum := wAlnum
    cwd := .ok (String.toList "/w")
    cliParse := fun _ => .error (String.toList "bad usage")
    regexBuild := fun _ _ => .ok wRegex
    fs := wFs
    ext := fun _ _ _ _ => .ok { exit_code := 0, stdout := [], stderr := [] } }

/-- A concrete parsed grep invocation: pattern `hi`, files `f` (readable,
matching) and `g` (unreadable). -/
def wCli : GrepCli :=
  { word := false, ignoreCase := false, after := 0,
    pattern := String.toList "hi",
    files := [String.toList "f", String.toList "g"] }

/-- A two-stage pipeline whose second stage is named `exit`. -/
def wPipeExit2 : Pipeline :=
  ⟨[{ name := String.toList "echo", args := [String.toList "hi"] },
    { name := String.toList "exit", args := [] }]⟩

/-- The single-stage pipeline `echo hi`. -/
def wPipeEcho : Pipeline :=
  ⟨[{ name := String.toList "echo", args := [String.toList "hi"] }]⟩

/-- The two-stage pipeline `echo hi | wc`. -/
def wPipeEchoWc : Pipeline :=
  ⟨[{ name := String.toList "echo", args := [String.toList "hi"] },
    { name := String.toList "wc", args := [] }]⟩

/-- The per-stage `(exit code, stderr)` results of `echo hi | wc`. -/
def wEchoWcResults : List (Int × Bytes) := [(0, []), (0, [])]

/-- The final stdout of `echo hi | wc`: the bytes of `"1 1 3\n"`. -/
def wEchoWcFin : Bytes := [49, 32, 49, 32, 51, 10]

/-- A single-stage pipeline `exit 7`. -/
def wPipeExit1 : Pipeline :=
  ⟨[{ name := String.toList "exit", args := [String.toList "7"] }]⟩

/-! ## Helper lemmas -/

theorem run_cat_ok_continue {args : List (List Char)} {stdin : Option Bytes}
    {fs : Fs} {r : ShellControl × Bytes × Bytes}
    (h : run_cat args stdin fs = .ok r) : ∃ n, r.1 = .Continue n := by
  unfold run_cat at h
  split at h
  · split at h <;> (cases h; exact ⟨_, rfl⟩)
  · cases h; exact ⟨_, rfl⟩

theorem run_wc_ok_continue {args : List (List Char)} {stdin : Option Bytes}
    {fs : Fs} {r : ShellControl × Bytes × Bytes}
    (h : run_wc args stdin fs = .ok r) : ∃ n, r.1 = .Continue n := by
  unfold run_wc at h
  split at h
  · split at h <;> (cases h; exact ⟨_, rfl⟩)
  · split at h <;> (cases h; exact ⟨_, rfl⟩)
  · cases h; exact ⟨_, rfl⟩

theorem runGrepParsed_ok_continue {alnum : Char → Bool} {re : Regex}
    {cli : GrepCli} {stdin : Option Bytes} {fs : Fs}
    {r : ShellControl × Bytes × Bytes}
    (h : runGrepParsed alnum re cli stdin fs = .ok r) :
    ∃ n, r.1 = .Continue n := by
  unfold runGrepParsed at h
  split at h
  · split at h <;> (cases h; exact ⟨_, rfl⟩)
  · cases h; exact ⟨_, rfl⟩

theorem run_grep_ok_continue {O : Oracles} {args : List (List Char)}
    {stdin : Option Bytes} {r : ShellControl × Bytes × Bytes}
    (h : run_grep O args stdin = .ok r) : ∃ n, r.1 = .Continue n := by
  unfold run_grep at h
  split at h
  · cases h; exact ⟨_, rfl⟩
  · split at h
    · cases h; exact ⟨_, rfl⟩
    · exact runGrepParsed_ok_continue h

theorem run_builtin_exit_of_Exit {O : Oracles} {b : Builtin}
    {args : List (List Char)} {stdin : Option Bytes}
    {r : ShellControl × Bytes × Bytes} {code : Int}
    (h : run_builtin_with_input O b args stdin = .ok r)
    (hx : r.1 = .Exit code) : b = .exit := by
  cases b
  case exit => rfl
  case echo =>
    simp only [run_builtin_with_input, run_echo] at h
    cases h; simp at hx
  case pwd =>
    simp only [run_builtin_with_input, run_pwd] at h
    split at h
    · cases h
    · cases h; simp at hx
  case cat =>
    simp only [run_builtin_with_input] at h
    obtain ⟨n, hn⟩ := run_cat_ok_continue h
    rw [hn] at hx; cases hx
  case wc =>
    simp only [run_builtin_with_input] at h
    obtain ⟨n, hn⟩ := run_wc_ok_continue h
    rw [hn] at hx; cases hx
  case grep =>
    simp only [run_builtin_with_input] at h
    obtain ⟨n, hn⟩ := run_grep_ok_continue h
    rw [hn] at hx; cases hx

theorem from_name_exit {name : List Char}
    (h : Builtin.from_name name = some .exit) :
    name = String.toList "exit" := by
  unfold Builtin.from_name at h
  split_ifs at h <;> simp_all

theorem os_pipes_ok_continue {O : Oracles} {env : Env} {p : Pipeline}
    {ctrl : ShellControl} {evs : List WriteEvent}
    (h : run_pipeline_with_os_pipes O env p = .ok (ctrl, evs)) :
    ∃ n, ctrl = .Continue n := by
  unfold run_pipeline_with_os_pipes at h
  split at h
  · cases h
  · cases h; exact ⟨_, rfl⟩

/-! ## Claim C10 -/

/-- C10: for every cat invocation with a non-empty argument list, the piped
stdin bytes are ignored entirely: any two stdin values (including none)
give identical results; stdin is consulted only when the argument list is
empty. -/
theorem C10_cat_ignores_stdin_with_args (args : List (List Char))
    (s1 s2 : Option Bytes) (fs : Fs) (h : args ≠ []) :
    run_cat args s1 fs = run_cat args s2 fs := by
  have he : args.isEmpty = false := by
    simpa [List.isEmpty_iff] using h
  unfold run_cat
  rw [he]
  simp

/-- Witness for C10 at a concrete input: `cat f` with stdin `"hi\n"` versus
no stdin. -/
theorem C10_witness :
    run_cat [String.toList "f"] (some wBytes) wFs =
      run_cat [String.toList "f"] none wFs :=
  C10_cat_ignores_stdin_with_args [String.toList "f"] (some wBytes) none wFs
    (by simp)

/-! ## Claim C8 -/

/-- C8: for every readable file, `cat FILE` produces exactly the file's
bytes on stdout with exit 0 and no stderr, and `wc` on those bytes as stdin
reports exactly what `wc FILE` reports. -/
theorem C8_cat_pipe_wc (fs : Fs) (p : List Char) (bytes : Bytes)
    (h : fs p = .ok bytes) :
    run_cat [p] none fs = .ok (.Continue 0, bytes, []) ∧
    run_wc [] (some bytes) fs = run_wc [p] none fs := by
  constructor
  · simp [run_cat, catLoop, h]
  · simp [run_wc, h]

/-- Witness for C8 at the concrete file `f` holding `"hi\n"`. -/
theorem C8_witness :
    run_cat [String.toList "f"] none wFs = .ok (.Continue 0, wBytes, []) ∧
    run_wc [] (some wBytes) wFs = run_wc [String.toList "f"] none wFs :=
  C8_cat_pipe_wc wFs (String.toList "f") wBytes (by simp [wFs])

/-! ## Claim C7 -/

/-- C7: a pipeline of two or more stages containing a stage named `exit` is
rejected up front — the executor writes `exit: cannot be used in pipeline`,
returns `Continue(2)` and runs nothing (the result does not depend on any
oracle); and `Exit(N)` arises only from a single-stage pipeline whose one
stage is named `exit`. -/
theorem C7_exit_only_single_stage (O : Oracles) (env : Env) (p : Pipeline) :
    (2 ≤ p.commands.length →
      (∃ c ∈ p.commands, c.name = String.toList "exit") →
      run_pipeline O env p =
        .ok (.Continue 2, [],
          enc (String.toList "exit: cannot be used in pipeline\n"))) ∧
    (∀ r code, run_pipeline O env p = .ok r → r.1 = .Exit code →
      ∃ c, p.commands = [c] ∧ c.name = String.toList "exit") := by
  obtain ⟨cmds⟩ := p
  constructor
  · intro hlen hex
    match cmds with
    | [] => simp at hlen
    | [c] => simp at hlen
    | c1 :: c2 :: tl =>
      show (if (c1 :: c2 :: tl).any (fun c => c.name = String.toList "exit")
          then _ else _) = _
      rw [if_pos]
      simp only [List.any_eq_true, decide_eq_true_eq]
      obtain ⟨c, hc, hname⟩ := hex
      exact ⟨c, hc, hname⟩
  · intro r code h hx
    match cmds with
    | [] =>
      exfalso
      rw [show run_pipeline O env ⟨[]⟩ =
            (if ([] : List CommandSpec).any
                (fun c => c.name = String.toList "exit") then
              .ok (.Continue 2, [],
                enc (String.toList "exit: cannot be used in pipeline\n"))
            else
              match run_pipeline_with_os_pipes O env ⟨[]⟩ with
              | .error e => .error e
              | .ok (ctrl, evs) =>
                .ok (ctrl, eventsOut evs, eventsErr evs)) from rfl] at h
      simp only [List.any_nil, Bool.false_eq_true, if_false] at h
      split at h
      · cases h
      · rename_i ctrl evs hos
        cases h
        obtain ⟨n, hn⟩ := os_pipes_ok_continue hos
        rw [hn] at hx; cases hx
    | [c] =>
      refine ⟨c, rfl, ?_⟩
      rw [show run_pipeline O env ⟨[c]⟩ = run_single_command O env c from rfl]
        at h
      unfold run_single_command at h
      split at h
      · rename_i b hb
        have := run_builtin_exit_of_Exit h hx
        subst this
        exact from_name_exit hb
      · split at h
        · cases h
        · cases h; simp at hx
    | c1 :: c2 :: tl =>
      exfalso
      rw [show run_pipeline O env ⟨c1 :: c2 :: tl⟩ =
            (if (c1 :: c2 :: tl).any
                (fun c => c.name = String.toList "exit") then
              .ok (.Continue 2, [],
                enc (String.toList "exit: cannot be used in pipeline\n"))
            else
              match run_pipeline_with_os_pipes O env ⟨c1 :: c2 :: tl⟩ with
              | .error e => .error e
              | .ok (ctrl, evs) =>
                .ok (ctrl, eventsOut evs, eventsErr evs)) from rfl] at h
      split at h
      · cases h; simp at hx
      · split at h
        · cases h
        · rename_i ctrl evs hos
          cases h
          obtain ⟨n, hn⟩ := os_pipes_ok_continue hos
          rw [hn] at hx; cases hx

/-- Witness for C7: the reject branch on a concrete two-stage pipeline with
`exit`, and the `Exit(7)` provenance on the concrete single-stage
`exit 7`. -/
theorem C7_witness :
    run_pipeline wOracles [] wPipeExit2 =
      .ok (.Continue 2, [],
        enc (String.toList "exit: cannot be used in pipeline\n")) ∧
    ∃ c, wPipeExit1.commands = [c] ∧ c.name = String.toList "exit" :=
  ⟨(C7_exit_only_single_stage wOracles [] wPipeExit2).1 (by simp [wPipeExit2])
      ⟨{ name := String.toList "exit", args := [] }, by simp [wPipeExit2], rfl⟩,
    (C7_exit_only_single_stage wOracles [] wPipeExit1).2
      (.Exit 7, [], []) 7 rfl rfl⟩

/-! ## Claim C9 -/

theorem grep_found_indep (alnum : Char → Bool) (re : Regex) (word : Bool)
    (after : Nat) (fp : Option (List Char)) (b : Bytes) :
    (grep_bytes_into_output alnum re word after fp b).1 =
      (grep_bytes_into_output alnum re word after none b).1 := by
  simp [grep_bytes_into_output]

theorem grepFilesLoop_spec (alnum : Char → Bool) (re : Regex) (word : Bool)
    (after : Nat) (withPre : Bool) (fs : Fs) :
    ∀ (files : List (List Char)) (foundAny hadError : Bool)
      (out err : Bytes),
      (grepFilesLoop alnum re word after withPre fs files foundAny hadError
          out err).1 =
        (foundAny || files.any (fun p =>
          match fs p with
          | .ok b => (grep_bytes_into_output alnum re word after none b).1
          | .error _ => false)) ∧
      (grepFilesLoop alnum re word after withPre fs files foundAny hadError
          out err).2.1 =
        (hadError || files.any (fun p =>
          match fs p with
          | .ok _ => false
          | .error _ => true)) := by
  intro files
  induction files with
  | nil => intro foundAny hadError out err; simp [grepFilesLoop]
  | cons p rest ih =>
    intro foundAny hadError out err
    unfold grepFilesLoop
    cases hfs : fs p with
    | ok b =>
      simp only [hfs, List.any_cons]
      rw [(ih _ _ _ _).1, (ih _ _ _ _).2]
      constructor
      · rw [grep_found_indep]
        simp [Bool.or_assoc]
      · simp
    | error e =>
      simp only [hfs, List.any_cons]
      rw [(ih _ _ _ _).1, (ih _ _ _ _).2]
      constructor
      · simp
      · simp

/-- C9: for a grep invocation with file arguments, the exit code is 2 if
reading any listed file failed (even when another file matched), else 0 if
any match was found, else 1. -/
theorem C9_grep_error_precedence (alnum : Char → Bool) (re : Regex)
    (cli : GrepCli) (stdin : Option Bytes) (fs : Fs)
    (h : cli.files ≠ []) :
    ∃ out err, runGrepParsed alnum re cli stdin fs =
      .ok (.Continue (
        if cli.files.any (fun p =>
            match fs p with
            | .ok _ => false
            | .error _ => true) then 2
        else if cli.files.any (fun p =>
            match fs p with
            | .ok b =>
              (grep_bytes_into_output alnum re cli.word cli.after none b).1
            | .error _ => false) then 0
        else 1), out, err) := by
  have hne : cli.files.isEmpty = false := by
    simpa [List.isEmpty_iff] using h
  have hs := grepFilesLoop_spec alnum re cli.word cli.after
    (cli.files.length > 1) fs cli.files false false [] []
  simp only [Bool.false_or] at hs
  have key : runGrepParsed alnum re cli stdin fs =
      .ok (.Continue
        (if (grepFilesLoop alnum re cli.word cli.after
            (cli.files.length > 1) fs cli.files false false [] []).2.1 then 2
         else if (grepFilesLoop alnum re cli.word cli.after
            (cli.files.length > 1) fs cli.files false false [] []).1 then 0
         else 1),
        (grepFilesLoop alnum re cli.word cli.after (cli.files.length > 1) fs
          cli.files false false [] []).2.2.1,
        (grepFilesLoop alnum re cli.word cli.after (cli.files.length > 1) fs
          cli.files false false [] []).2.2.2) := by
    unfold runGrepParsed
    rw [hne]
    simp only [Bool.false_eq_true, if_false]
  exact ⟨_, _, key.trans (by rw [hs.1, hs.2])⟩

/-- Witness for C9: files `f` (readable, matching `hi`) and `g`
(unreadable); the exit code is 2 despite the match in `f`. -/
theorem C9_witness :
    ∃ out err, runGrepParsed wAlnum wRegex wCli none wFs =
      .ok (.Continue 2, out, err) := by
  have h := C9_grep_error_precedence wAlnum wRegex wCli none wFs
    (by simp [wCli])
  simpa [wCli, wFs] using h

/-! ## Claim C2 -/

theorem rustLinesGo_len : ∀ (s cur' : List Char), ∀ cur : List Char,
    cur.isEmpty = cur'.isEmpty →
    (rustLinesGo s cur).length = (linesLfCrlfGo s cur').length := by
  intro s cur'
  induction s, cur' using linesLfCrlfGo.induct with
  | case1 cur' hc =>
    intro cur h
    rw [hc] at h
    simp [rustLinesGo, linesLfCrlfGo, h, hc]
  | case2 cur' hc =>
    intro cur h
    have hc' : cur'.isEmpty = false := by simpa using hc
    rw [hc'] at h
    simp [rustLinesGo, linesLfCrlfGo, h, hc']
  | case3 rest cur' ih =>
    intro cur h
    rw [rustLinesGo.eq_3 _ _ _ (by decide), rustLinesGo.eq_2,
      linesLfCrlfGo.eq_2]
    simp only [List.length_cons]
    rw [ih [] (by simp)]
  | case4 rest cur' ih =>
    intro cur h
    rw [rustLinesGo.eq_2, linesLfCrlfGo.eq_3]
    simp only [List.length_cons]
    rw [ih [] (by simp)]
  | case5 c rest cur' h1 h2 ih =>
    intro cur h
    rw [rustLinesGo.eq_3 _ _ _ h2, linesLfCrlfGo.eq_4 _ _ _ h1 h2]
    exact ih (cur ++ [c]) (by cases cur <;> cases cur' <;> rfl)

theorem splitWsGo_len : ∀ (s : List Char) (cur : List Char),
    (splitWsGo s cur).length =
      (if cur.isEmpty then 0 else 1) + runCountGo s cur.isEmpty := by
  intro s
  induction s with
  | nil =>
    intro cur
    by_cases hc : cur.isEmpty
    · simp [splitWsGo, runCountGo, hc]
    · have hc' : cur.isEmpty = false := by simpa using hc
      simp [splitWsGo, runCountGo, hc']
  | cons c rest ih =>
    intro cur
    by_cases hw : isUnicodeWs c <;> by_cases hc : cur.isEmpty <;>
        simp [splitWsGo, runCountGo, hw, hc, ih] <;>
      first
        | omega
        | rw [show (cur ++ [c]).isEmpty = false by simp]

/-- C2, amended: `bytes` is the raw byte length; `lines` counts lines split
on LF or CRLF terminators only (a lone CR does not terminate a line),
excluding a trailing empty tail; `words` counts the maximal non-whitespace
runs of the lossily decoded text. -/
theorem C2_wc_counts (bytes : Bytes) :
    count_wc bytes = ((linesLfCrlf (utf8Lossy bytes)).length,
      runCount (utf8Lossy bytes), bytes.length) := by
  unfold count_wc linesLfCrlf runCount rustLines splitWs
  have h1 := rustLinesGo_len (utf8Lossy bytes) [] [] rfl
  have h2 := splitWsGo_len (utf8Lossy bytes) []
  simp only [List.isEmpty_nil, if_true, Nat.zero_add] at h2
  show ((rustLinesGo (utf8Lossy bytes) []).length,
    (splitWsGo (utf8Lossy bytes) []).length, bytes.length) = _
  rw [h1, h2]

/-- Counterexample to C2 as stated: on the bytes of `"a\rb"` the code
counts one line (`str::lines` does not treat a lone CR as a terminator),
while splitting on any of CR, LF, or CRLF would count two. -/
theorem C2_counterexample :
    count_wc [97, 13, 98] = (1, 2, 3) ∧
    countWcClaim [97, 13, 98] = (2, 2, 3) := by decide

/-! ## Claim C5 -/

theorem mem_ite_singleton {α : Type} {c : Prop} [Decidable c] {x y : α}
    (h : x ∈ (if c then [y] else [])) : x = y := by
  split at h
  · simpa using h
  · simp at h

theorem mem_ite_singleton_iff {α : Type} {c : Prop} [Decidable c] {x y : α} :
    (x ∈ (if c then [y] else [])) ↔ (c ∧ x = y) := by
  split <;> rename_i h <;> simp [h]

theorem pairwise_map_ite_singleton {α β : Type} {c : Prop} [Decidable c]
    (f : α → β) (y : α) (R : β → β → Prop) :
    (((if c then [y] else []) : List α).map f).Pairwise R := by
  by_cases h : c <;> simp [h]

theorem ite_gt_eq_max (pu e : Int) : (if e > pu then e else pu) = max pu e := by
  rcases le_or_lt e pu with h | h
  · rw [if_neg (not_lt.mpr h), max_eq_left h]
  · rw [if_pos h, max_eq_right h.le]

theorem grepScan_idx_le (isM : List Char → Bool) (after : Nat) :
    ∀ (lines : List (List Char)) (idx : Nat) (pu : Int) (found : Bool)
      (q : Nat × List Char),
      q ∈ (grepScan isM after lines idx pu found).2 → idx ≤ q.1 := by
  intro lines
  induction lines with
  | nil => intro idx pu found q hq; simp [grepScan] at hq
  | cons line rest ih =>
    intro idx pu found q hq
    simp only [grepScan] at hq
    rcases List.mem_append.mp hq with h1 | h2
    · simp [mem_ite_singleton h1]
    · exact Nat.le_of_succ_le (ih (idx + 1) _ _ q h2)

theorem grepScan_pairwise (isM : List Char → Bool) (after : Nat) :
    ∀ (lines : List (List Char)) (idx : Nat) (pu : Int) (found : Bool),
      ((grepScan isM after lines idx pu found).2.map Prod.fst).Pairwise
        (· < ·) := by
  intro lines
  induction lines with
  | nil => intro idx pu found; simp [grepScan]
  | cons line rest ih =>
    intro idx pu found
    simp only [grepScan, List.map_append]
    rw [List.pairwise_append]
    refine ⟨?_, ih _ _ _, ?_⟩
    · exact pairwise_map_ite_singleton _ _ _
    · intro a ha b hb
      obtain ⟨qa, hqa, rfl⟩ := List.mem_map.mp ha
      obtain ⟨qb, hqb, rfl⟩ := List.mem_map.mp hb
      have hb1 : idx + 1 ≤ qb.1 := grepScan_idx_le isM after rest (idx + 1)
        _ _ qb hqb
      have ha1 : qa.1 = idx := by
        rw [mem_ite_singleton hqa]
      omega

theorem grepScan_mem_iff (isM : List Char → Bool) (after : Nat) :
    ∀ (lines : List (List Char)) (idx : Nat) (pu : Int) (found : Bool)
      (j : Nat) (l : List Char),
      ((j, l) ∈ (grepScan isM after lines idx pu found).2) ↔
      ∃ k, lines[k]? = some l ∧ j = idx + k ∧
        (j : Int) ≤ printUntilClaim isM after lines idx pu k := by
  intro lines
  induction lines with
  | nil => intro idx pu found j l; simp [grepScan]
  | cons line rest ih =>
    intro idx pu found j l
    simp only [grepScan, List.mem_append]
    constructor
    · rintro (h1 | h2)
      · obtain ⟨hcond, h1⟩ := mem_ite_singleton_iff.mp h1
        rw [Prod.mk.injEq] at h1
        obtain ⟨hj, hl⟩ := h1
        refine ⟨0, by simp [hl], by omega, ?_⟩
        simp only [printUntilClaim]
        rw [ite_gt_eq_max] at hcond
        rw [hj]
        exact hcond
      · obtain ⟨k, hk, hj, hb⟩ := (ih (idx + 1) _ _ j l).mp h2
        refine ⟨k + 1, by simpa using hk, by omega, ?_⟩
        rw [printUntilClaim]
        rw [ite_gt_eq_max] at hb
        exact hb
    · rintro ⟨k, hk, hj, hb⟩
      cases k with
      | zero =>
        left
        simp only [List.getElem?_cons_zero, Option.some.injEq] at hk
        rw [printUntilClaim] at hb
        rw [show (if isM line then
            (if ((idx + after : Nat) : Int) > pu then ((idx + after : Nat) : Int)
              else pu) else pu) =
          (if isM line then max pu ((idx + after : Nat) : Int) else pu) by
          rw [ite_gt_eq_max]]
        have hj0 : j = idx := by omega
        subst hj0
        rw [if_pos (by exact hb)]
        simp [hk]
      | succ k =>
        right
        refine (ih (idx + 1) _ _ j l).mpr ⟨k, by simpa using hk, by omega, ?_⟩
        rw [printUntilClaim] at hb
        rw [ite_gt_eq_max]
        exact hb

/-- C5: with `-A N`, a line of index `idx` is emitted iff
`idx ≤ print_until`, where `print_until` starts at −1 and becomes
`max(print_until, idx + N)` at each matching line (`printUntilClaim` is
exactly that recurrence, evaluated through line `idx`); and the emitted
indices are strictly increasing, so no source line is ever emitted more
than once. -/
theorem C5_grep_after_context (isM : List Char → Bool) (after : Nat)
    (lines : List (List Char)) :
    (∀ j l, ((j, l) ∈ (grepScan isM after lines 0 (-1) false).2) ↔
      (lines[j]? = some l ∧
        (j : Int) ≤ printUntilClaim isM after lines 0 (-1) j)) ∧
    ((grepScan isM after lines 0 (-1) false).2.map Prod.fst).Pairwise
      (· < ·) := by
  refine ⟨?_, grepScan_pairwise isM after lines 0 (-1) false⟩
  intro j l
  rw [grepScan_mem_iff isM after lines 0 (-1) false j l]
  constructor
  · rintro ⟨k, hk, hj, hb⟩
    have : k = j := by omega
    subst this
    exact ⟨hk, hb⟩
  · rintro ⟨hk, hb⟩
    exact ⟨j, hk, by omega, hb⟩

/-! ## Claim C6 -/

theorem take_getLast {α : Type} (l : List α) (s : Nat) (h : s ≤ l.length) :
    (l.take s).getLast? = if s = 0 then none else l[s - 1]? := by
  rcases Nat.eq_zero_or_pos s with hs | hs
  · subst hs; simp
  · rw [if_neg (by omega), List.getLast?_eq_getElem?]
    have hlen : (l.take s).length = s := by simp [h]
    rw [hlen, List.getElem?_take_of_lt (by omega)]

theorem drop_head {α : Type} (l : List α) (e : Nat) :
    (l.drop e).head? = l[e]? := by
  rw [List.head?_eq_getElem?]
  simp

theorem flank_ok_iff (alnum : Char → Bool) (o : Option Char) :
    ((match o with
      | none => true
      | some c => !(is_word_constituent alnum c)) = true) ↔
    (∀ c, o = some c → alnum c = false ∧ c ≠ '_') := by
  cases o with
  | none => simp
  | some c => simp [is_word_constituent]

/-- C6: under `-w`, a line counts as matching iff some reported regex match
on it is non-zero-width and the character immediately before the match
start (if any) and immediately after the match end (if any) are not
word-constituent (Unicode alphanumeric — the `alnum` oracle — or
underscore); zero-width matches are skipped.  `hwf` states that the regex
engine reports matches within the line's bounds. -/
theorem C6_whole_word_match (alnum : Char → Bool) (re : Regex)
    (l : List Char)
    (hwf : ∀ m ∈ re.findIter l, m.1 ≤ m.2 ∧ m.2 ≤ l.length) :
    line_has_whole_word_match alnum re l = true ↔
      ∃ m ∈ re.findIter l, m.1 ≠ m.2 ∧
        (∀ c, (if m.1 = 0 then none else l[m.1 - 1]?) = some c →
          alnum c = false ∧ c ≠ '_') ∧
        (∀ c, l[m.2]? = some c → alnum c = false ∧ c ≠ '_') := by
  unfold line_has_whole_word_match
  rw [List.any_eq_true]
  constructor
  · rintro ⟨m, hm, hp⟩
    obtain ⟨h12, h2len⟩ := hwf m hm
    refine ⟨m, hm, ?_⟩
    simp only [] at hp
    by_cases he : m.1 = m.2
    · rw [if_pos he] at hp; cases hp
    · rw [if_neg he] at hp
      simp only [Bool.and_eq_true] at hp
      rw [take_getLast l m.1 (le_trans h12 h2len), drop_head] at hp
      exact ⟨he, (flank_ok_iff alnum _).mp hp.1, (flank_ok_iff alnum _).mp hp.2⟩
  · rintro ⟨m, hm, he, hbef, haft⟩
    obtain ⟨h12, h2len⟩ := hwf m hm
    refine ⟨m, hm, ?_⟩
    simp only []
    rw [if_neg he]
    simp only [Bool.and_eq_true]
    rw [take_getLast l m.1 (le_trans h12 h2len), drop_head]
    exact ⟨(flank_ok_iff alnum _).mpr hbef, (flank_ok_iff alnum _).mpr haft⟩

/-- Witness for C6: the concrete regex reporting the match `(2, 5)` on the
line `x foo`; the flanking characters are a space and the line end, so the
line whole-word-matches. -/
theorem C6_witness :
    line_has_whole_word_match wAlnum wRegex (String.toList "x foo") = true ↔
      ∃ m ∈ wRegex.findIter (String.toList "x foo"), m.1 ≠ m.2 ∧
        (∀ c, (if m.1 = 0 then none
          else (String.toList "x foo")[m.1 - 1]?) = some c →
          wAlnum c = false ∧ c ≠ '_') ∧
        (∀ c, (String.toList "x foo")[m.2]? = some c →
          wAlnum c = false ∧ c ≠ '_') :=
  C6_whole_word_match wAlnum wRegex (String.toList "x foo")
    (by intro m hm; simp [wRegex] at hm; rw [hm]; constructor <;> decide)

/-! ## Claim C3 -/

theorem parsePipelineLoop_length :
    ∀ (toks : List Token) (current : List (List Char))
      (commands cs : List CommandSpec),
      parsePipelineLoop toks current commands = .ok cs →
      commands.length < cs.length := by
  intro toks
  induction toks with
  | nil =>
    intro current commands cs h
    cases current with
    | nil => cases h
    | cons name args => cases h; simp
  | cons t rest ih =>
    intro current commands cs h
    cases t with
    | word w => exact ih _ _ _ h
    | pipe =>
      cases current with
      | nil => cases h
      | cons name args =>
        have := ih _ _ _ h
        simp only [List.length_append, List.length_singleton] at this
        omega

theorem parsePipelineLoop_names :
    ∀ (toks : List Token) (current : List (List Char))
      (commands cs : List CommandSpec),
      parsePipelineLoop toks current commands = .ok cs →
      ∀ c ∈ cs, c ∈ commands ∨ c.name ∈ current ∨ Token.word c.name ∈ toks := by
  intro toks
  induction toks with
  | nil =>
    intro current commands cs h c hc
    cases current with
    | nil => cases h
    | cons name args =>
      cases h
      rcases List.mem_append.mp hc with h1 | h2
      · exact Or.inl h1
      · simp only [List.mem_singleton] at h2
        subst h2
        exact Or.inr (Or.inl (by simp))
  | cons t rest ih =>
    intro current commands cs h c hc
    cases t with
    | word w =>
      rcases ih _ _ _ h c hc with h1 | h2 | h3
      · exact Or.inl h1
      · rcases List.mem_append.mp h2 with ha | hb
        · exact Or.inr (Or.inl ha)
        · simp only [List.mem_singleton] at hb
          subst hb
          exact Or.inr (Or.inr (by simp))
      · exact Or.inr (Or.inr (List.mem_cons_of_mem _ h3))
    | pipe =>
      cases current with
      | nil => cases h
      | cons name args =>
        rcases ih _ _ _ h c hc with h1 | h2 | h3
        · rcases List.mem_append.mp h1 with ha | hb
          · exact Or.inl ha
          · simp only [List.mem_singleton] at hb
            subst hb
            exact Or.inr (Or.inl (by simp))
        · simp at h2
        · exact Or.inr (Or.inr (List.mem_cons_of_mem _ h3))

theorem split_assignments_tokens_sub :
    ∀ (toks : List Token) (t : Token),
      t ∈ (split_assignments toks).2 → t ∈ toks := by
  intro toks
  induction toks with
  | nil => intro t ht; simp [split_assignments] at ht
  | cons t0 rest ih =>
    intro t ht
    cases t0 with
    | word w =>
      simp only [split_assignments] at ht
      cases hpa : parse_assignment w with
      | some kv =>
        rw [hpa] at ht
        exact List.mem_cons_of_mem _ (ih t ht)
      | none => rw [hpa] at ht; exact ht
    | pipe => simp only [split_assignments] at ht; exact ht

/-- C3, amended: every pipeline `parse_line` produces is non-empty, and
every stage name is non-empty *provided* every word token of the tokenized
line is non-empty; an empty quoted region in command position produces an
empty-string token and hence a stage whose name is the empty string (see
the counterexample). -/
theorem C3_pipeline_stage_names (line : List Char) (env : Env)
    (pl : ParsedLine) (P : Pipeline)
    (h : parse_line line env = .ok pl) (hp : pl.pipeline = some P) :
    P.commands ≠ [] ∧
    (∀ exp toks, expand_line line env = .ok exp →
      tokenize_with_pipes_and_quotes exp = .ok toks →
      (∀ w, Token.word w ∈ toks → w ≠ []) →
      ∀ c ∈ P.commands, c.name ≠ []) := by
  unfold parse_line at h
  cases hexp : expand_line line env with
  | error e => rw [hexp] at h; cases h
  | ok exp0 =>
    rw [hexp] at h
    dsimp only [] at h
    cases htok : tokenize_with_pipes_and_quotes exp0 with
    | error e => rw [htok] at h; cases h
    | ok toks0 =>
      rw [htok] at h
      dsimp only [] at h
      rcases hsplit : split_assignments toks0 with ⟨asn, rem⟩
      rw [hsplit] at h
      dsimp only [] at h
      by_cases hemp : rem.isEmpty
      · rw [if_pos hemp] at h
        cases h
        cases hp
      · rw [if_neg hemp] at h
        cases hpp : parse_pipeline rem with
        | error e => rw [hpp] at h; cases h
        | ok P0 =>
          rw [hpp] at h
          simp only [Except.map] at h
          cases h
          have hPeq : P0 = P := by simpa using hp
          subst hPeq
          unfold parse_pipeline at hpp
          cases hloop : parsePipelineLoop rem [] [] with
          | error e => rw [hloop] at hpp; cases hpp
          | ok cs =>
            rw [hloop] at hpp
            simp only [Except.map, Except.ok.injEq] at hpp
            subst hpp
            constructor
            · have hlen := parsePipelineLoop_length _ _ _ _ hloop
              intro hnil
              have hcs : cs = [] := hnil
              rw [hcs] at hlen
              simp at hlen
            · intro exp toks hexp' htok' hne c hc
              simp only [hexp, Except.ok.injEq] at hexp'
              subst hexp'
              simp only [htok, Except.ok.injEq] at htok'
              subst htok'
              rcases parsePipelineLoop_names _ _ _ _ hloop c hc with
                h1 | h2 | h3
              · simp at h1
              · simp at h2
              · refine hne c.name (split_assignments_tokens_sub toks0 _ ?_)
                rw [hsplit]
                exact h3

/-- Counterexample to C3 as stated: on the line `'' foo` the parser
succeeds and produces a single-stage pipeline whose stage name is the empty
string — the empty quoted region in command position becomes the (empty)
command name. -/
theorem C3_counterexample :
    parse_line [squote, squote, ' ', 'f', 'o', 'o'] [] =
      .ok { assignments := [],
            pipeline :=
              some ⟨[{ name := [], args := [String.toList "foo"] }]⟩ } := by
  simp [parse_line, expand_line, expandLineSt, expandGo, finish_assignment_word,
    parse_assignment, splitOnce, tryReadVarName, tokenize_with_pipes_and_quotes,
    tokenizeGo, split_assignments, parse_pipeline, parsePipelineLoop, squote,
    dquote, isWsChar, String.toList, Except.map]

/-- Witness for the amended C3 on the concrete line `echo hi`, whose word
tokens are all non-empty. -/
theorem C3_witness :
    wPipeEcho.commands ≠ [] ∧
    (∀ exp toks,
      expand_line (String.toList "echo hi") [] = .ok exp →
      tokenize_with_pipes_and_quotes exp = .ok toks →
      (∀ w, Token.word w ∈ toks → w ≠ []) →
      ∀ c ∈ wPipeEcho.commands, c.name ≠ []) :=
  C3_pipeline_stage_names (String.toList "echo hi") []
    { assignments := [], pipeline := some wPipeEcho } wPipeEcho
    (by simp [parse_line, expand_line, expandLineSt, expandGo,
      finish_assignment_word, parse_assignment, splitOnce, tryReadVarName,
      tokenize_with_pipes_and_quotes, tokenizeGo, split_assignments,
      parse_pipeline, parsePipelineLoop, squote, dquote, isWsChar,
      String.toList, Except.map, wPipeEcho])
    rfl

/-! ## Claim C4 -/

theorem joinLoop_eq_G (completions : List (Nat × (Int × Bytes))) :
    ∀ l : List Nat, joinLoop completions l =
      joinLoopG
        (fun i => (completions.find? (fun q => q.1 = i)).map (fun q => q.2))
        l := by
  intro l
  induction l with
  | nil => rfl
  | cons i rest ih => simp only [joinLoop, joinLoopG, ih]

theorem joinLoopG_map_succ (g : Nat → Option (Int × Bytes)) :
    ∀ l : List Nat, joinLoopG g (l.map Nat.succ) =
      joinLoopG (fun i => g (Nat.succ i)) l := by
  intro l
  induction l with
  | nil => rfl
  | cons i rest ih => simp only [List.map_cons, joinLoopG, ih]

theorem joinLoopG_range :
    ∀ (res : List (Int × Bytes)) (g : Nat → Option (Int × Bytes)),
      (∀ i, i < res.length → g i = res[i]?) →
      joinLoopG g (List.range res.length) = some res := by
  intro res
  induction res with
  | nil => intro g _; rfl
  | cons r rs ih =>
    intro g hg
    rw [List.length_cons, List.range_succ_eq_map]
    simp only [joinLoopG]
    rw [hg 0 (by simp)]
    simp only [List.getElem?_cons_zero]
    rw [joinLoopG_map_succ, ih (fun i => g (Nat.succ i))
      (fun i hi => by
        show g (Nat.succ i) = rs[i]?
        rw [hg (Nat.succ i) (by simp; omega)]
        simp)]
    rfl

theorem find_filterMap_results (results : List (Int × Bytes)) (i : Nat)
    (r : Int × Bytes) :
    ∀ σ : List Nat, i ∈ σ → results[i]? = some r →
      ((σ.filterMap (fun j => (results[j]?).map (fun x => (j, x)))).find?
        (fun q => q.1 = i)) = some (i, r) := by
  intro σ
  induction σ with
  | nil => intro hm; cases hm
  | cons j rest ih =>
    intro hm hr
    simp only [List.filterMap_cons]
    cases hjr : results[j]? with
    | none =>
      simp only [Option.map_none']
      rcases List.mem_cons.mp hm with rfl | hm'
      · rw [hjr] at hr; cases hr
      · exact ih hm' hr
    | some rj =>
      simp only [Option.map_some']
      by_cases hij : j = i
      · subst hij
        rw [hjr] at hr
        rw [Option.some.injEq] at hr
        subst hr
        simp [List.find?_cons]
      · rw [List.find?_cons_of_neg _ (by simp [hij])]
        rcases List.mem_cons.mp hm with rfl | hm'
        · exact absurd rfl hij
        · exact ih hm' hr

theorem joinInOrder_complete (results : List (Int × Bytes)) (σ : List Nat)
    (hσ : ∀ i, i < results.length → i ∈ σ) :
    joinInOrder (σ.filterMap (fun j => (results[j]?).map (fun x => (j, x))))
      results.length = some results := by
  unfold joinInOrder
  rw [joinLoop_eq_G]
  apply joinLoopG_range
  intro i hi
  have hr : results[i]? = some results[i] := by
    rw [List.getElem?_eq_getElem hi]
  rw [find_filterMap_results results i results[i] σ (hσ i hi) hr, hr]
  rfl

theorem runStagesChain_length (O : Oracles) (env : Env) :
    ∀ (cmds : List CommandSpec) (input : Option Bytes)
      (results : List (Int × Bytes)) (fin : Bytes),
      runStagesChain O env cmds input = .ok (results, fin) →
      results.length = cmds.length := by
  intro cmds
  induction cmds with
  | nil =>
    intro input results fin h
    simp only [runStagesChain] at h
    rw [Except.ok.injEq, Prod.mk.injEq] at h
    rw [← h.1]
    rfl
  | cons cmd rest ih =>
    intro input results fin h
    simp only [runStagesChain] at h
    cases hs : runStage O env cmd input with
    | error e => rw [hs] at h; cases h
    | ok t =>
      rw [hs] at h
      obtain ⟨code, out, err⟩ := t
      dsimp only [] at h
      cases hc : runStagesChain O env rest (some out) with
      | error e => rw [hc] at h; cases h
      | ok t2 =>
        rw [hc] at h
        obtain ⟨rs2, fin2⟩ := t2
        dsimp only [] at h
        rw [Except.ok.injEq, Prod.mk.injEq] at h
        have := ih (some out) rs2 fin2 hc
        rw [← h.1]
        simp [this]

theorem eventsErr_append (a b : List WriteEvent) :
    eventsErr (a ++ b) = eventsErr a ++ eventsErr b := by
  induction a with
  | nil => rfl
  | cons e rest ih => cases e <;> simp [eventsErr, ih]

theorem eventsOut_append (a b : List WriteEvent) :
    eventsOut (a ++ b) = eventsOut a ++ eventsOut b := by
  induction a with
  | nil => rfl
  | cons e rest ih => cases e <;> simp [eventsOut, ih]

theorem eventsErr_filtered (rs : List (Int × Bytes)) :
    eventsErr ((rs.filter (fun r => !r.2.isEmpty)).map
      (fun r => WriteEvent.toStderr r.2)) =
    (rs.map (fun r => r.2)).foldr (fun a b => a ++ b) [] := by
  induction rs with
  | nil => rfl
  | cons r rest ih =>
    by_cases hr : r.2.isEmpty
    · have hr2 : r.2 = [] := by simpa [List.isEmpty_iff] using hr
      simp [List.filter_cons, hr, ih, hr2]
    · have hr' : (!r.2.isEmpty) = true := by simpa using hr
      simp [List.filter_cons, hr', eventsErr, ih]

theorem eventsOut_stderr_map (rs : List (Int × Bytes)) :
    eventsOut ((rs.filter (fun r => !r.2.isEmpty)).map
      (fun r => WriteEvent.toStderr r.2)) = [] := by
  induction rs with
  | nil => rfl
  | cons r rest ih =>
    by_cases hr : r.2.isEmpty
    · simp [List.filter_cons, hr, ih]
    · have hr' : (!r.2.isEmpty) = true := by simpa using hr
      simp [List.filter_cons, hr', eventsOut, ih]

/-- C4: for every multi-stage pipeline whose stages all complete without a
`ShellError`, and for every order `σ` in which the workers may finish, the
executor's output is the same as with the in-order join (completion order
is irrelevant); the bytes written to the interpreter stderr are exactly the
concatenation of the stages' captured stderr buffers in command order; the
pipeline stdout (the last stage's stdout) is written after all stage
stderr; and the control value is `Continue(code)` with `code` the exit code
of the last stage. -/
theorem C4_pipeline_stderr_order (O : Oracles) (env : Env) (p : Pipeline)
    (σ : List Nat) (results : List (Int × Bytes)) (fin : Bytes)
    (hσ : σ.Perm (List.range p.commands.length))
    (hchain : runStagesChain O env p.commands none = .ok (results, fin))
    (hn : p.commands ≠ []) :
    runPipelineScheduled O env p σ = run_pipeline_with_os_pipes O env p ∧
    ∃ ctrl evs, runPipelineScheduled O env p σ = .ok (ctrl, evs) ∧
      eventsErr evs =
        (results.map (fun r => r.2)).foldr (fun a b => a ++ b) [] ∧
      eventsOut evs = fin ∧
      (∃ errEvs, evs = errEvs ++ [WriteEvent.toStdout fin] ∧
        ∀ e ∈ errEvs, ∃ b, e = WriteEvent.toStderr b) ∧
      ∃ rlast, results.getLast? = some rlast ∧ ctrl = .Continue rlast.1 := by
  have hlen := runStagesChain_length O env p.commands none results fin hchain
  have hmem : ∀ i, i < results.length → i ∈ σ := by
    intro i hi
    rw [hσ.mem_iff, List.mem_range]
    omega
  have hjoin := joinInOrder_complete results σ hmem
  have hks : runPipelineScheduled O env p σ =
      .ok (.Continue (((results.getLast?).map (fun r => r.1)).getD 0),
        ((results.filter (fun r => !r.2.isEmpty)).map
          (fun r => WriteEvent.toStderr r.2)) ++
          [WriteEvent.toStdout fin]) := by
    unfold runPipelineScheduled
    rw [hchain]
    dsimp only []
    rw [hjoin]
  have hko : run_pipeline_with_os_pipes O env p =
      .ok (.Continue (((results.getLast?).map (fun r => r.1)).getD 0),
        ((results.filter (fun r => !r.2.isEmpty)).map
          (fun r => WriteEvent.toStderr r.2)) ++
          [WriteEvent.toStdout fin]) := by
    unfold run_pipeline_with_os_pipes
    rw [hchain]
  refine ⟨hks.trans hko.symm, _, _, hks, ?_, ?_, ?_, ?_⟩
  · rw [eventsErr_append, eventsErr_filtered]
    simp [eventsErr]
  · rw [eventsOut_append, eventsOut_stderr_map]
    simp [eventsOut]
  · refine ⟨_, rfl, ?_⟩
    intro e he
    obtain ⟨r, _, rfl⟩ := List.mem_map.mp he
    exact ⟨r.2, rfl⟩
  · have hres : results ≠ [] := by
      intro hnil
      rw [hnil] at hlen
      exact hn (List.length_eq_zero.mp hlen.symm)
    obtain ⟨rlast, hrl⟩ := Option.ne_none_iff_exists'.mp
      (mt List.getLast?_eq_none_iff.mp hres)
    exact ⟨rlast, hrl, by rw [hrl]; rfl⟩

/-- Witness for C4: the concrete two-stage pipeline `echo hi | wc` with the
workers completing in reversed order `[1, 0]`. -/
theorem C4_witness :
    runPipelineScheduled wOracles [] wPipeEchoWc [1, 0] =
      run_pipeline_with_os_pipes wOracles [] wPipeEchoWc ∧
    ∃ ctrl evs,
      runPipelineScheduled wOracles [] wPipeEchoWc [1, 0] =
        .ok (ctrl, evs) ∧
      eventsErr evs =
        ((wEchoWcResults.map (fun r => r.2)).foldr (fun a b => a ++ b) []) ∧
      eventsOut evs = wEchoWcFin ∧
      (∃ errEvs, evs = errEvs ++ [WriteEvent.toStdout wEchoWcFin] ∧
        ∀ e ∈ errEvs, ∃ b, e = WriteEvent.toStderr b) ∧
      ∃ rlast, wEchoWcResults.getLast? = some rlast ∧
        ctrl = .Continue rlast.1 :=
  C4_pipeline_stderr_order wOracles [] wPipeEchoWc [1, 0] wEchoWcResults
    wEchoWcFin (by decide) (by rfl) (by decide)

/-! ## Claim C1 -/

theorem finish_false (st : ExpandSt) (h : st.assignFlag = false) :
    (finish_assignment_word st).assignFlag = false ∧
    (finish_assignment_word st).env = st.env := by
  unfold finish_assignment_word
  by_cases hw : st.wordStarted
  · simp [hw, h]
  · simp [hw, h]

theorem expandGo_false_flag :
    ∀ (input : List Char) (mode : QMode) (st : ExpandSt),
      st.assignFlag = false → ∀ st', expandGo input mode st = .ok st' →
      st'.assignFlag = false ∧ st'.env = st.env := by
  intro input mode st
  induction input, mode, st using expandGo.induct with
  | case1 st =>
    intro h st' he
    rw [expandGo.eq_1, Except.ok.injEq] at he
    subst he
    exact finish_false st h
  | case2 st =>
    intro h st' he
    rw [expandGo.eq_2] at he
    cases he
  | case3 st =>
    intro h st' he
    rw [expandGo.eq_3] at he
    cases he
  | case4 ch rest st hw st1 run ih =>
    intro h st' he
    rw [expandGo.eq_4, if_pos hw] at he
    have hf := finish_false st h
    obtain ⟨h1, h2⟩ := ih hf.1 st' he
    exact ⟨h1, h2.trans hf.2⟩
  | case5 rest st st1 hns ih =>
    intro h st' he
    rw [expandGo.eq_4, if_neg hns, if_pos rfl] at he
    have hf := finish_false st h
    obtain ⟨h1, h2⟩ := ih rfl st' he
    exact ⟨h1, h2.trans hf.2⟩
  | case6 rest st h1 h2 ih =>
    intro h st' he
    rw [expandGo.eq_4, if_neg h1, if_neg h2, if_pos rfl] at he
    exact ih h st' he
  | case7 rest st h1 h2 h3 ih =>
    intro h st' he
    rw [expandGo.eq_4, if_neg h1, if_neg h2, if_neg h3, if_pos rfl] at he
    exact ih h st' he
  | case8 rest st name hname val h1 h2 h3 h4 ih =>
    intro h st' he
    rw [expandGo.eq_4, if_neg h1, if_neg h2, if_neg h3, if_neg h4,
      if_pos rfl, hname] at he
    exact ih h st' he
  | case9 rest st hname h1 h2 h3 h4 ih =>
    intro h st' he
    rw [expandGo.eq_4, if_neg h1, if_neg h2, if_neg h3, if_neg h4,
      if_pos rfl, hname] at he
    exact ih h st' he
  | case10 ch rest st h1 h2 h3 h4 h5 ih =>
    intro h st' he
    rw [expandGo.eq_4, if_neg h1, if_neg h2, if_neg h3, if_neg h4,
      if_neg h5] at he
    exact ih h st' he
  | case11 rest st ih =>
    intro h st' he
    rw [expandGo.eq_5, if_pos rfl] at he
    exact ih h st' he
  | case12 ch rest st hq ih =>
    intro h st' he
    rw [expandGo.eq_5, if_neg hq] at he
    exact ih h st' he
  | case13 rest st ih =>
    intro h st' he
    rw [expandGo.eq_6, if_pos rfl] at he
    exact ih h st' he
  | case14 rest st name hname val hd ih =>
    intro h st' he
    rw [expandGo.eq_6, if_neg hd, if_pos rfl, hname] at he
    exact ih h st' he
  | case15 rest st hname hd ih =>
    intro h st' he
    rw [expandGo.eq_6, if_neg hd, if_pos rfl, hname] at he
    exact ih h st' he
  | case16 ch rest st hd hdol ih =>
    intro h st' he
    rw [expandGo.eq_6, if_neg hd, if_neg hdol] at he
    exact ih h st' he

/-- C1, amended: when Pass A finishes a started word while the
assignment-prefix flag is set, the word tested against the `NAME=value`
grammar is the *post-expansion* (variable-substituted) quote-stripped word
buffer; on a match the assignment is committed to the local working
environment (and is what subsequent `$NAME` lookups see); on a mismatch the
flag is cleared, and once the flag is false the scan never records another
assignment (the working environment is unchanged for the rest of the
line). -/
theorem C1_assignment_tracking :
    (∀ (st : ExpandSt) (k v : List Char), st.wordStarted = true →
      st.assignFlag = true → parse_assignment st.curWord = some (k, v) →
      finish_assignment_word st =
        { st with env := envInsert st.env k v, curWord := [],
                  wordStarted := false } ∧
      envGet (envInsert st.env k v) k = some v) ∧
    (∀ st : ExpandSt, st.wordStarted = true → st.assignFlag = true →
      parse_assignment st.curWord = none →
      finish_assignment_word st =
        { st with assignFlag := false, curWord := [],
                  wordStarted := false }) ∧
    (∀ (input : List Char) (mode : QMode) (st st' : ExpandSt),
      st.assignFlag = false → expandGo input mode st = .ok st' →
      st'.assignFlag = false ∧ st'.env = st.env) := by
  refine ⟨?_, ?_, fun input mode st st' h he =>
    expandGo_false_flag input mode st h st' he⟩
  · intro st k v hw hf hp
    constructor
    · simp [finish_assignment_word, hw, hf, hp]
    · simp [envGet, envInsert]
  · intro st hw hf hp
    simp [finish_assignment_word, hw, hf, hp]

/-- Witness for the amended C1: one concrete matching word commit, one
concrete non-matching word clearing the flag, and one concrete false-flag
run leaving the environment unchanged. -/
theorem C1_witness :
    (finish_assignment_word
        { out := [], env := [], assignFlag := true,
          curWord := String.toList "a=1", wordStarted := true } =
      { out := [], env := envInsert [] (String.toList "a") (String.toList "1"),
        assignFlag := true, curWord := [], wordStarted := false } ∧
      envGet (envInsert [] (String.toList "a") (String.toList "1"))
        (String.toList "a") = some (String.toList "1")) ∧
    (finish_assignment_word
        { out := [], env := [], assignFlag := true,
          curWord := String.toList "echo", wordStarted := true } =
      { out := [], env := [], assignFlag := false, curWord := [],
        wordStarted := false }) ∧
    ((∀ st', expandGo (String.toList "b=2") .normal
        { out := [], env := [], assignFlag := false, curWord := [],
          wordStarted := false } = .ok st' →
      st'.assignFlag = false ∧ st'.env = [])) :=
  ⟨C1_assignment_tracking.1
      { out := [], env := [], assignFlag := true,
        curWord := String.toList "a=1", wordStarted := true }
      (String.toList "a") (String.toList "1") rfl rfl (by decide),
    C1_assignment_tracking.2.1
      { out := [], env := [], assignFlag := true,
        curWord := String.toList "echo", wordStarted := true }
      rfl rfl (by decide),
    fun st' he => C1_assignment_tracking.2.2 (String.toList "b=2") .normal
      { out := [], env := [], assignFlag := false, curWord := [],
        wordStarted := false } st' rfl he⟩

/-- Counterexample to C1 as stated: with `X=1` in the environment, on the
line `a=$X echo $a` Pass A commits `a=1` (the substituted word), so `$a`
later expands to `1`; under the claim's pre-expansion reading the committed
value would be the literal `$X` and the output would differ. -/
theorem C1_counterexample :
    expand_line (String.toList "a=$X echo $a")
        [(String.toList "X", String.toList "1")] =
      .ok (String.toList "a=1 echo 1") ∧
    expandLineClaimPre (String.toList "a=$X echo $a")
        [(String.toList "X", String.toList "1")] =
      .ok (String.toList "a=1 echo $X") ∧
    String.toList "a=1 echo 1" ≠ String.toList "a=1 echo $X" := by
  refine ⟨?_, ?_, by decide⟩
  · simp [expand_line, expandLineSt, expandGo, finish_assignment_word,
      parse_assignment, splitOnce, tryReadVarName, isVarNameChar,
      isAsciiAlphanumeric, isAsciiAlphabetic, isAsciiDigit, envGet, envInsert,
      squote, dquote, isWsChar, String.toList, Except.map]
  · simp [expandLineClaimPre, expandGoClaimPre, finish_assignment_word,
      parse_assignment, splitOnce, tryReadVarName, isVarNameChar,
      isAsciiAlphanumeric, isAsciiAlphabetic, isAsciiDigit, envGet, envInsert,
      squote, dquote, isWsChar, String.toList, Except.map]

end SeCli
